import Mathlib

/-!
Formal model of the Path ORAM client of `oram.py`, the bucket codec and
backend of `storage_engine.py` / `common.py`, and the stash-size simulator of
`simulation.py`.  Pure functions of the source become Lean functions; the
stateful client becomes explicit state passing on `OramState`; the random
leaf drawn by each access is passed in as an explicit argument; fallible
operations return `Except`.  The backend's `read_multiple` may return results
in arbitrary order (`concurrent.futures.as_completed`); the model
determinizes it to input order, which none of the verified properties are
sensitive to.
-/

namespace PathORAM

/-- Byte sequences (`bytes` in the source) modelled as lists of naturals. -/
abbrev Bytes := List Nat

/-- The dummy sentinel `DUMMY_BLOCK_INDEX = -1` from `common.py`. -/
def DUMMY_BLOCK_INDEX : Int := -1

/-- A `Block` from `common.py`: opaque payload and logical index (`-1` marks a
dummy block).  The source dataclass carries a third display-only `name : str`
field that no code path of the ORAM engine, bucket codec or snapshot logic
ever sets or reads (`reconstruct_bucket` drops it); it is omitted here. -/
structure Block where
  data : Bytes := []
  index : Int := DUMMY_BLOCK_INDEX
  deriving Repr, DecidableEq

/-- The default block `Block()`: empty data, dummy index. -/
def Block.dummy : Block := {}

/-- A `Bucket` from `common.py`: the list of blocks stored at one tree node. -/
structure Bucket where
  blocks : List Block
  deriving Repr, DecidableEq

/-! ## Bucket codec

The source serializes a bucket with
`json.dumps(bucket, cls=DataclassWithBytesEncoder).encode()` (JSON text with
base64 payloads) and deserializes with `StorageEngine.reconstruct_bucket`,
which raises on any bytes `json.loads` rejects — in particular on the empty
byte sequence `b""` a backend read returns for a missing object.  We model
the JSON text by a self-describing length-prefixed byte encoding that carries
the same information: per block a sign tag and magnitude for `index`, then
the payload length, then the payload. -/

/-- Serialization of one block within a bucket blob. -/
def encodeBlock (b : Block) : Bytes :=
  (if b.index < 0 then 0 else 1) :: b.index.natAbs :: b.data.length :: b.data

/-- Serialization of a bucket.  The leading tag byte mirrors that the JSON
text of a bucket is nonempty and starts with a brace: the empty byte sequence
is never a valid serialization. -/
def encodeBucket (bu : Bucket) : Bytes :=
  1 :: bu.blocks.length :: (bu.blocks.map encodeBlock).flatten

/-- Deserialization of a count-prefixed run of serialized blocks. -/
def decodeBlocks : Nat → Bytes → Except String (List Block)
  | 0, [] => .ok []
  | 0, _ :: _ => .error "Expecting value: malformed bucket"
  | n+1, sgn :: mag :: len :: rest =>
    if len ≤ rest.length then
      match decodeBlocks n (rest.drop len) with
      | .ok bs =>
        .ok ({ data := rest.take len,
               index := if sgn = 0 then -(mag : Int) else (mag : Int) } :: bs)
      | .error e => .error e
    else .error "Expecting value: malformed bucket"
  | _+1, [] => .error "Expecting value: malformed bucket"
  | _+1, [_] => .error "Expecting value: malformed bucket"
  | _+1, [_, _] => .error "Expecting value: malformed bucket"

/-- `StorageEngine.reconstruct_bucket`: parse a bucket blob, failing on
anything that is not a serialization (the source's `json.loads` raising). -/
def decodeBucket : Bytes → Except String Bucket
  | 1 :: n :: rest =>
    match decodeBlocks n rest with
    | .ok bs => .ok ⟨bs⟩
    | .error e => .error e
  | _ => .error "Expecting value: malformed bucket"

theorem decodeBucket_nil :
    decodeBucket [] = .error "Expecting value: malformed bucket" := rfl

theorem decode_encode_index (i : Int) :
    (if (if i < 0 then (0 : Nat) else 1) = 0 then -(i.natAbs : Int) else (i.natAbs : Int))
      = i := by
  by_cases h : i < 0
  · rw [if_pos h, if_pos rfl]; omega
  · rw [if_neg h, if_neg (by norm_num)]; omega

theorem decodeBlocks_encode (bs : List Block) :
    decodeBlocks bs.length (bs.map encodeBlock).flatten = .ok bs := by
  induction bs with
  | nil => rfl
  | cons b bs ih =>
    show decodeBlocks (bs.length + 1)
        (((if b.index < 0 then 0 else 1) :: b.index.natAbs :: b.data.length :: b.data)
          ++ (bs.map encodeBlock).flatten) = _
    have hlen : b.data.length ≤ (b.data ++ (bs.map encodeBlock).flatten).length := by simp
    simp only [List.cons_append, decodeBlocks, List.append_eq]
    rw [if_pos hlen, List.drop_left, List.take_left, ih]
    have hidx : (if b.index < 0 then -(|b.index|) else |b.index|) = b.index := by
      by_cases h : b.index < 0
      · rw [if_pos h, abs_of_neg h, neg_neg]
      · rw [if_neg h, abs_of_nonneg (not_lt.1 h)]
    simp [decode_encode_index, hidx]

/-- Round-trip law of the bucket codec. -/
theorem decodeBucket_encodeBucket (bu : Bucket) :
    decodeBucket (encodeBucket bu) = .ok bu := by
  show decodeBucket (1 :: bu.blocks.length :: (bu.blocks.map encodeBlock).flatten) = _
  simp only [decodeBucket, decodeBlocks_encode]


/-! ## Tree addressing -/

/-- The parent-climbing loop of `PathOram._get_root_to_leaf_path`: starting
from a node id, append the node and move to the parent `(node - 1) / 2` until
the root `0` is reached.  The while loop is modelled with a fuel argument;
any fuel above the starting node id suffices, because the node id strictly
decreases at every step. -/
def climbToRoot : Nat → Nat → List Nat
  | 0, _ => []
  | _ + 1, 0 => [0]
  | fuel + 1, node + 1 => (node + 1) :: climbToRoot fuel (node / 2)

/-- `PathOram._get_root_to_leaf_path`: the node ids from the root down to
leaf `leaf_id` in a tree of height `L`; leaf `ℓ` lives at node `2^L - 1 + ℓ`
and the climbed list is reversed at the end. -/
def rootToLeafPath (L leaf : Nat) : List Nat :=
  (climbToRoot (2 ^ L + leaf) (2 ^ L - 1 + leaf)).reverse

theorem climbToRoot_fuel (node : Nat) :
    ∀ f₁ f₂, node < f₁ → node < f₂ → climbToRoot f₁ node = climbToRoot f₂ node := by
  induction node using Nat.strong_induction_on with
  | _ node ih =>
    intro f₁ f₂ h₁ h₂
    match node, f₁, f₂ with
    | 0, _ + 1, _ + 1 => rfl
    | n + 1, a + 1, b + 1 =>
      show (n + 1) :: climbToRoot a (n / 2) = (n + 1) :: climbToRoot b (n / 2)
      rw [ih (n / 2) (by omega) a b (by omega) (by omega)]

theorem rootToLeafPath_zero : rootToLeafPath 0 0 = [0] := rfl

theorem rootToLeafPath_succ (L leaf : Nat) :
    rootToLeafPath (L + 1) leaf =
      rootToLeafPath L (leaf / 2) ++ [2 ^ (L + 1) - 1 + leaf] := by
  have ha : 1 ≤ 2 ^ L := Nat.one_le_two_pow
  have h2 : 2 ^ (L + 1) = 2 * 2 ^ L := by rw [pow_succ]; ring
  have hnode : 2 ^ (L + 1) - 1 + leaf = (2 ^ (L + 1) - 2 + leaf) + 1 := by omega
  have hfuel : 2 ^ (L + 1) + leaf = (2 ^ (L + 1) + leaf - 1) + 1 := by omega
  unfold rootToLeafPath
  rw [hnode, hfuel]
  show (((2 ^ (L + 1) - 2 + leaf) + 1)
      :: climbToRoot (2 ^ (L + 1) + leaf - 1) ((2 ^ (L + 1) - 2 + leaf) / 2)).reverse = _
  have hdiv : (2 ^ (L + 1) - 2 + leaf) / 2 = 2 ^ L - 1 + leaf / 2 := by omega
  have hclimb : climbToRoot (2 ^ (L + 1) + leaf - 1) ((2 ^ (L + 1) - 2 + leaf) / 2)
      = climbToRoot (2 ^ L + leaf / 2) (2 ^ L - 1 + leaf / 2) := by
    rw [hdiv]
    exact climbToRoot_fuel _ _ _ (by omega) (by omega)
  rw [hclimb, List.reverse_cons, ← hnode]

theorem rootToLeafPath_length (L : Nat) :
    ∀ leaf, leaf < 2 ^ L → (rootToLeafPath L leaf).length = L + 1 := by
  induction L with
  | zero =>
    intro leaf h
    interval_cases leaf
    rfl
  | succ L ih =>
    intro leaf h
    have h2 : 2 ^ (L + 1) = 2 * 2 ^ L := by rw [pow_succ]; ring
    rw [rootToLeafPath_succ, List.length_append, ih (leaf / 2) (by omega)]
    simp

theorem rootToLeafPath_getD (L : Nat) :
    ∀ leaf, leaf < 2 ^ L → ∀ k, k ≤ L →
      (rootToLeafPath L leaf).getD k 0 = 2 ^ k - 1 + leaf / 2 ^ (L - k) := by
  induction L with
  | zero =>
    intro leaf hleaf k hk
    interval_cases k
    interval_cases leaf
    rfl
  | succ L ih =>
    intro leaf hleaf k hk
    have h2 : 2 ^ (L + 1) = 2 * 2 ^ L := by rw [pow_succ]; ring
    have hlf : leaf / 2 < 2 ^ L := by omega
    rw [rootToLeafPath_succ]
    rcases Nat.lt_or_ge k (L + 1) with hk' | hk'
    · have hlen : k < (rootToLeafPath L (leaf / 2)).length := by
        rw [rootToLeafPath_length L _ hlf]; omega
      rw [List.getD_append _ _ _ _ hlen, ih (leaf / 2) hlf k (by omega)]
      have hpow : 2 * 2 ^ (L - k) = 2 ^ (L + 1 - k) := by
        rw [← pow_succ']
        congr 1
        omega
      rw [Nat.div_div_eq_div_mul, hpow]
    · have hkeq : k = L + 1 := by omega
      subst hkeq
      have hlen : (rootToLeafPath L (leaf / 2)).length = L + 1 :=
        rootToLeafPath_length L _ hlf
      rw [List.getD_append_right _ _ _ _ (by omega), hlen]
      simp

theorem rootToLeafPath_getD_zero (L leaf : Nat) (h : leaf < 2 ^ L) :
    (rootToLeafPath L leaf).getD 0 0 = 0 := by
  rw [rootToLeafPath_getD L leaf h 0 (Nat.zero_le L)]
  simp [Nat.div_eq_of_lt h]

theorem rootToLeafPath_getD_last (L leaf : Nat) (h : leaf < 2 ^ L) :
    (rootToLeafPath L leaf).getD L 0 = 2 ^ L - 1 + leaf := by
  rw [rootToLeafPath_getD L leaf h L le_rfl]
  simp

theorem rootToLeafPath_getD_ub (L leaf : Nat) (h : leaf < 2 ^ L) (k : Nat) (hk : k ≤ L) :
    (rootToLeafPath L leaf).getD k 0 < 2 ^ (k + 1) - 1 := by
  rw [rootToLeafPath_getD L leaf h k hk]
  have hq : leaf / 2 ^ (L - k) < 2 ^ k := by
    apply Nat.div_lt_of_lt_mul
    calc leaf < 2 ^ L := h
    _ = 2 ^ (L - k) * 2 ^ k := by rw [← pow_add]; congr 1; omega
  have h1 : 1 ≤ 2 ^ k := Nat.one_le_two_pow
  have h2 : 2 ^ (k + 1) = 2 * 2 ^ k := by rw [pow_succ]; ring
  omega

theorem rootToLeafPath_getD_strictMono (L leaf : Nat) (h : leaf < 2 ^ L)
    (k k' : Nat) (hkk : k < k') (hk' : k' ≤ L) :
    (rootToLeafPath L leaf).getD k 0 < (rootToLeafPath L leaf).getD k' 0 := by
  have hub := rootToLeafPath_getD_ub L leaf h k (by omega)
  have hlb : 2 ^ k' - 1 ≤ (rootToLeafPath L leaf).getD k' 0 := by
    rw [rootToLeafPath_getD L leaf h k' hk']
    exact Nat.le_add_right _ _
  have hmono : 2 ^ (k + 1) ≤ 2 ^ k' := Nat.pow_le_pow_right (by norm_num) (by omega)
  calc (rootToLeafPath L leaf).getD k 0 < 2 ^ (k + 1) - 1 := hub
  _ ≤ 2 ^ k' - 1 := by omega
  _ ≤ (rootToLeafPath L leaf).getD k' 0 := hlb

theorem rootToLeafPath_nodup (L leaf : Nat) (h : leaf < 2 ^ L) :
    (rootToLeafPath L leaf).Nodup := by
  have hlen := rootToLeafPath_length L leaf h
  have hp : (rootToLeafPath L leaf).Pairwise (· < ·) := by
    rw [List.pairwise_iff_getElem]
    intro i j hi hj hij
    rw [← List.getD_eq_getElem _ 0 hi, ← List.getD_eq_getElem _ 0 hj]
    exact rootToLeafPath_getD_strictMono L leaf h i j hij (by omega)
  exact hp.imp Nat.ne_of_lt

theorem rootToLeafPath_getD_mem (L leaf : Nat) (h : leaf < 2 ^ L) (k : Nat) (hk : k ≤ L) :
    (rootToLeafPath L leaf).getD k 0 ∈ rootToLeafPath L leaf := by
  have hlen := rootToLeafPath_length L leaf h
  have hklen : k < (rootToLeafPath L leaf).length := by omega
  rw [List.getD_eq_getElem _ 0 hklen]
  exact List.getElem_mem hklen

theorem mem_rootToLeafPath (L leaf n : Nat) (h : leaf < 2 ^ L) :
    n ∈ rootToLeafPath L leaf ↔ ∃ k, k ≤ L ∧ (rootToLeafPath L leaf).getD k 0 = n := by
  constructor
  · intro hn
    rcases List.mem_iff_getElem.mp hn with ⟨i, hi, hEq⟩
    have hlen := rootToLeafPath_length L leaf h
    refine ⟨i, by omega, ?_⟩
    rw [List.getD_eq_getElem _ 0 hi]
    exact hEq
  · rintro ⟨k, hk, rfl⟩
    exact rootToLeafPath_getD_mem L leaf h k hk

theorem rootToLeafPath_child (L leaf : Nat) (h : leaf < 2 ^ L) (k : Nat) (hk : k < L) :
    (rootToLeafPath L leaf).getD (k + 1) 0 = 2 * (rootToLeafPath L leaf).getD k 0 + 1 ∨
    (rootToLeafPath L leaf).getD (k + 1) 0 = 2 * (rootToLeafPath L leaf).getD k 0 + 2 := by
  rw [rootToLeafPath_getD L leaf h (k + 1) (by omega),
    rootToLeafPath_getD L leaf h k (by omega)]
  have hexp : L - k = (L - (k + 1)) + 1 := by omega
  have hd : leaf / 2 ^ (L - k) = leaf / 2 ^ (L - (k + 1)) / 2 := by
    rw [Nat.div_div_eq_div_mul, ← pow_succ, hexp]
  have h1 : 1 ≤ 2 ^ k := Nat.one_le_two_pow
  have h2 : 2 ^ (k + 1) = 2 * 2 ^ k := by rw [pow_succ]; ring
  rw [hd]
  generalize leaf / 2 ^ (L - (k + 1)) = q
  omega

/-! ## Tree height -/

/-- Fuel-based exact ceiling base-2 logarithm (`fuel ≥ n` suffices). -/
def log2CeilFuel : Nat → Nat → Nat
  | 0, _ => 0
  | fuel + 1, n => if n ≤ 1 then 0 else log2CeilFuel fuel ((n + 1) / 2) + 1

/-- `self.L = math.ceil(math.log2(self.N)) if self.N > 1 else 0` from
`PathOram.__init__` (the exact ceiling; the source computes it through
floating point, which agrees for every realistic `N`). -/
def calcL (N : Nat) : Nat := if 1 < N then log2CeilFuel N N else 0

theorem log2CeilFuel_eq_clog (n : Nat) :
    ∀ fuel, n ≤ fuel → log2CeilFuel fuel n = Nat.clog 2 n := by
  induction n using Nat.strong_induction_on with
  | _ n ih =>
    intro fuel hf
    match fuel with
    | 0 =>
      have hn : n = 0 := by omega
      subst hn
      simp [log2CeilFuel]
    | f + 1 =>
      by_cases h1 : n ≤ 1
      · interval_cases n
        · simp [log2CeilFuel]
        · simp [log2CeilFuel]
      · have hrec : (n + 1) / 2 < n := by omega
        have hstep : log2CeilFuel (f + 1) n = log2CeilFuel f ((n + 1) / 2) + 1 := by
          simp [log2CeilFuel, h1]
        rw [hstep, ih _ hrec f (by omega)]
        have h2n : 2 ≤ n := by omega
        conv_rhs => rw [Nat.clog_of_two_le (by norm_num) h2n]
        norm_num

theorem calcL_eq_clog (N : Nat) (h : 1 ≤ N) : calcL N = Nat.clog 2 N := by
  by_cases h2 : 1 < N
  · simp only [calcL, if_pos h2]
    exact log2CeilFuel_eq_clog N N le_rfl
  · have hN : N = 1 := by omega
    subst hN
    simp [calcL, Nat.clog_one_right]

/-! ## ORAM client state and the access operation -/

/-- The `Operation` enum of `oram.py`. -/
inductive Operation where
  | READ
  | WRITE
  deriving Repr, DecidableEq

/-- One backend operation, as observable by the storage server: a `GET` or a
`PUT` of the object named by a decimal node id (`LocalStorageEngine` /
`GCSStorageEngine` log exactly these). -/
inductive Ev where
  | get (node : Nat)
  | put (node : Nat)
  deriving Repr, DecidableEq

/-- The mutable state of a `PathOram` instance: configuration (`N`, `Z`, `L`,
`num_leaves`), position map, stash, plus the backend object store (node id to
stored bytes; `none` for a never-written object, which reads as `b""`).  The
position map dict always has exactly the keys `0..N-1`, so it is modelled as
a total function consulted only there; the stash dict is modelled as an
insertion-ordered association list keyed by `Block.index`. -/
structure OramState where
  N : Nat
  Z : Nat
  L : Nat
  numLeaves : Nat
  position : Int → Nat
  stash : List Block
  store : Nat → Option Bytes

/-- Python dict assignment `S[block.index] = block`: an existing key keeps
its place and gets the new value, a new key is appended at the end. -/
def dictInsert (s : List Block) (b : Block) : List Block :=
  if s.any fun x => x.index == b.index then
    s.map fun x => if x.index == b.index then b else x
  else s ++ [b]

/-- The lookup loop `for block in self.S.values(): if block.index == block_index`:
first stash entry with the given index. -/
def stashFind (s : List Block) (i : Int) : Option Block :=
  s.find? fun b => b.index == i

/-- Decoding one backend object in `_get_blocks`: `reconstruct_bucket` on the
read bytes, with the `except` fallback of `Z` dummy blocks
(`[Block() for _ in range(self.Z)]`). -/
def reconstructOrDummies (Z : Nat) (blob : Bytes) : List Block :=
  match decodeBucket blob with
  | .ok bu => bu.blocks
  | .error _ => List.replicate Z Block.dummy

/-- Read one node: a missing object yields the empty byte sequence (the
backend `read` returns `b""` on any failure). -/
def readNode (store : Nat → Option Bytes) (Z node : Nat) : List Block :=
  reconstructOrDummies Z ((store node).getD [])

/-- The block list collected by `PathOram._get_blocks`.  NOTE: the source
appends to `read_paths` and calls `read_multiple(read_paths)` inside the loop
over the path, so iteration `k` re-reads the first `k + 1` nodes; the node at
path position `k` is read `|path| - k` times in total and its blocks are
collected that many times (duplicates are idempotent for the stash). -/
def getBlocksList (store : Nat → Option Bytes) (Z : Nat) (p : List Nat) : List Block :=
  (List.range p.length).flatMap fun k => (p.take (k + 1)).flatMap (readNode store Z)

/-- The backend reads issued by `PathOram._get_blocks`, in order. -/
def getBlocksEvents (p : List Nat) : List Ev :=
  (List.range p.length).flatMap fun k => (p.take (k + 1)).map Ev.get

/-- One level of the greedy eviction loop in `PathOram.access`: partition the
stash into evictable blocks (same path node at this level) and the rest, keep
at most `Z` evictable ones for the bucket, return the remaining stash and the
bucket padded with dummies to `Z` blocks.  (The source re-inserts the
remaining blocks into the stash dict — a no-op for existing keys — and pops
the chosen ones, so the stash order is preserved minus the chosen blocks.) -/
def evictableAt (L : Nat) (pos : Int → Nat) (tpath : List Nat) (level : Nat)
    (b : Block) : Bool :=
  tpath.getD level 0 == (rootToLeafPath L (pos b.index)).getD level 0

/-- The at most `Z` evictable blocks kept for the bucket at this level
(`evictable_blocks[:self.Z]`). -/
def chosenAt (Z L : Nat) (pos : Int → Nat) (tpath : List Nat) (level : Nat)
    (stash : List Block) : List Block :=
  (stash.filter (evictableAt L pos tpath level)).take Z

def evictLevel (Z L : Nat) (pos : Int → Nat) (tpath : List Nat) (level : Nat)
    (stash : List Block) : List Block × Bucket :=
  (stash.filter fun b =>
     !((chosenAt Z L pos tpath level stash).any fun c => c.index == b.index),
   ⟨chosenAt Z L pos tpath level stash ++
     List.replicate (Z - (chosenAt Z L pos tpath level stash).length) Block.dummy⟩)

/-- The eviction loop over the given levels (`range(self.L, -1, -1)`),
returning the final stash and the buckets in construction order
(leaf-to-root). -/
def evictLevels (Z L : Nat) (pos : Int → Nat) (tpath : List Nat) :
    List Nat → List Block → List Block × List Bucket
  | [], stash => (stash, [])
  | level :: rest, stash =>
    let pr := evictLevel Z L pos tpath level stash
    let prs := evictLevels Z L pos tpath rest pr.1
    (prs.1, pr.2 :: prs.2)

/-- `range(self.L, -1, -1)`. -/
def levelsDesc (L : Nat) : List Nat := (List.range (L + 1)).reverse

/-- Overwrite one backend object. -/
def storeWrite (store : Nat → Option Bytes) (n : Nat) (blob : Bytes) :
    Nat → Option Bytes :=
  fun m => if m = n then some blob else store m

def writeStoreFold (store : Nat → Option Bytes) (pairs : List (Nat × Bucket)) :
    Nat → Option Bytes :=
  pairs.foldl (fun st pr => storeWrite st pr.1 (encodeBucket pr.2)) store

/-- The net backend content after `PathOram._write_path`: the buckets list is
reversed to root-to-leaf order and the bucket at position `i` is serialized
into the node at position `i` of the path.  (The source's repeated
`write_multiple` calls rewrite earlier nodes with unchanged bytes, so the net
store is one value per path node.) -/
def writePathStore (store : Nat → Option Bytes) (p : List Nat)
    (buckets : List Bucket) : Nat → Option Bytes :=
  writeStoreFold store (p.zip buckets.reverse)

/-- The backend writes issued by `PathOram._write_path`, in order: iteration
`i` of its loop calls `write_multiple` on the dict accumulated so far, which
holds the first `i + 1` path nodes in insertion order. -/
def writePathEvents (p : List Nat) : List Ev :=
  (List.range p.length).flatMap fun i => (p.take (i + 1)).map Ev.put

/-- Result of one successful `PathOram.access`: the returned data, the
backend operations performed, and the post state. -/
structure AccessResult where
  data : Bytes
  trace : List Ev
  state : OramState

/-- The remap `self.position[block_index] = random.randint(0, self.num_leaves - 1)`. -/
def posUpdate (pos : Int → Nat) (i : Int) (leaf : Nat) : Int → Nat :=
  fun j => if j = i then leaf else pos j

/-- Draining the read path into the stash: the non-dummy blocks collected by
`_get_blocks` are inserted into the stash dict in order. -/
def drainStash (st : OramState) (p : List Nat) : List Block :=
  ((getBlocksList st.store st.Z p).filter fun b =>
    b.index != DUMMY_BLOCK_INDEX).foldl dictInsert st.stash

/-- The data `access` returns (`target_block.data`).  `target_block` is the
very stash entry that a `WRITE` mutates (`target_block = block` then
`block.data = new_data` act on one object), so a `WRITE` on a present block
returns `new_data` itself; an absent block leaves the default
`Block().data == b""`. -/
def serviceData (found : Option Block) (op : Operation) (newData : Bytes) : Bytes :=
  match found, op with
  | some b, .READ => b.data
  | some _, .WRITE => newData
  | none, _ => ([] : Bytes)

/-- The stash after the read/update step of `access`: a `WRITE` updates the
present entry in place, or appends the new block when absent. -/
def serviceStash (stash1 : List Block) (found : Option Block) (op : Operation)
    (blockIndex : Int) (newData : Bytes) : List Block :=
  match found, op with
  | some _, .WRITE =>
    stash1.map fun x => if x.index == blockIndex then { x with data := newData } else x
  | none, .WRITE => stash1 ++ [{ data := newData, index := blockIndex }]
  | _, .READ => stash1

/-- The in-range body of `PathOram.access`, staged per the source: remap,
path read and drain, service, eviction, path write. -/
def accessBody (st : OramState) (op : Operation) (blockIndex : Int)
    (newData : Bytes) (newLeaf : Nat) : AccessResult :=
  let oldLeaf := st.position blockIndex
  let pos' := posUpdate st.position blockIndex newLeaf
  let p := rootToLeafPath st.L oldLeaf
  let stash1 := drainStash st p
  let found := stashFind stash1 blockIndex
  let stash2 := serviceStash stash1 found op blockIndex newData
  let pr := evictLevels st.Z st.L pos' p (levelsDesc st.L) stash2
  { data := serviceData found op newData
    trace := getBlocksEvents p ++ writePathEvents p
    state := { st with position := pos'
                       stash := pr.1
                       store := writePathStore st.store p pr.2 } }

/-- `PathOram.access(op, block_index, new_data)`.  The uniformly drawn
replacement leaf `random.randint(0, self.num_leaves - 1)` is passed in as
`newLeaf`; `new_data` is modelled as a byte sequence (the source allows
`None`, which no verified property exercises; `READ` never consults it).
Out of range indices raise `ValueError`, modelled as `Except.error`; the
check precedes every effect, so an error carries no state change and no
backend operation. -/
def access (st : OramState) (op : Operation) (blockIndex : Int)
    (newData : Bytes) (newLeaf : Nat) : Except String AccessResult :=
  if blockIndex < 0 ∨ (st.N : Int) ≤ blockIndex then
    .error "Block index out of range"
  else
    .ok (accessBody st op blockIndex newData newLeaf)

/-- One request of an access sequence: the operation, the block index, the
data (for writes), and the uniformly drawn replacement leaf consumed from
the random tape by this access. -/
structure Req where
  op : Operation
  index : Int
  data : Bytes
  leaf : Nat
  deriving Repr, DecidableEq

/-- Run a sequence of accesses, collecting the returned data of each access
and the concatenated backend trace. -/
def run : OramState → List Req → Except String (OramState × List Bytes × List Ev)
  | st, [] => .ok (st, [], [])
  | st, r :: rs =>
    match access st r.op r.index r.data r.leaf with
    | .error e => .error e
    | .ok res =>
      match run res.state rs with
      | .error e => .error e
      | .ok (stF, outs, tr) => .ok (stF, res.data :: outs, res.trace ++ tr)

/-- A fresh `PathOram` (the `__init__` branch with no stash file): height
from `calcL`, `num_leaves = 2^L`, an arbitrary (uniformly drawn) position
map, empty stash, and a backend with no objects. -/
def initState (N Z : Nat) (pos : Int → Nat) : OramState :=
  { N := N, Z := Z, L := calcL N, numLeaves := 2 ^ calcL N
    position := pos, stash := [], store := fun _ => none }

/-! ## Stash dictionary lemmas -/

theorem mem_dictInsert (s : List Block) (b x : Block) (hx : x ∈ dictInsert s b) :
    x ∈ s ∨ x = b := by
  unfold dictInsert at hx
  split at hx
  · rcases List.mem_map.mp hx with ⟨y, hy, hEq⟩
    by_cases hyb : y.index == b.index
    · right
      rw [if_pos hyb] at hEq
      exact hEq.symm
    · left
      rw [if_neg hyb] at hEq
      exact hEq ▸ hy
  · rcases List.mem_append.mp hx with h1 | h1
    · exact Or.inl h1
    · exact Or.inr (List.mem_singleton.mp h1)

theorem keys_dictInsert (s : List Block) (b : Block) :
    (dictInsert s b).map Block.index = s.map Block.index ∨
      (b.index ∉ s.map Block.index ∧
        (dictInsert s b).map Block.index = s.map Block.index ++ [b.index]) := by
  by_cases h : (s.any fun x => x.index == b.index) = true
  · left
    unfold dictInsert
    rw [if_pos h, List.map_map]
    apply List.map_congr_left
    intro x _
    simp only [Function.comp_apply]
    by_cases hxb : x.index == b.index
    · rw [if_pos hxb]
      exact (beq_iff_eq.mp hxb).symm
    · rw [if_neg hxb]
  · right
    constructor
    · intro hmem
      rcases List.mem_map.mp hmem with ⟨x, hx, hEq⟩
      exact h (List.any_eq_true.mpr ⟨x, hx, beq_iff_eq.mpr hEq⟩)
    · unfold dictInsert
      rw [if_neg h, List.map_append]
      rfl

theorem nodup_keys_dictInsert (s : List Block) (b : Block)
    (h : (s.map Block.index).Nodup) : ((dictInsert s b).map Block.index).Nodup := by
  rcases keys_dictInsert s b with hk | ⟨hnm, hk⟩
  · rw [hk]
    exact h
  · rw [hk]
    refine List.Nodup.append h (List.nodup_singleton _) ?_
    intro a ha hb
    rw [List.mem_singleton.mp hb] at ha
    exact hnm ha

theorem key_mem_dictInsert (s : List Block) (b : Block) (j : Int)
    (h : ∃ x ∈ s, x.index = j) : ∃ x ∈ dictInsert s b, x.index = j := by
  rcases h with ⟨x, hx, hxj⟩
  unfold dictInsert
  split
  · refine ⟨if x.index == b.index then b else x, List.mem_map_of_mem _ hx, ?_⟩
    by_cases hxb : x.index == b.index
    · rw [if_pos hxb, ← hxj]
      exact (beq_iff_eq.mp hxb).symm
    · rw [if_neg hxb]
      exact hxj
  · exact ⟨x, List.mem_append_left _ hx, hxj⟩

theorem key_self_dictInsert (s : List Block) (b : Block) :
    ∃ x ∈ dictInsert s b, x.index = b.index := by
  unfold dictInsert
  split
  · next h =>
    rcases List.any_eq_true.mp h with ⟨y, hy, hyb⟩
    have hif : (if y.index == b.index then b else y) = b := if_pos hyb
    exact ⟨b, List.mem_map.mpr ⟨y, hy, hif⟩, rfl⟩
  · exact ⟨b, List.mem_append_right _ (List.mem_singleton.mpr rfl), rfl⟩

theorem mem_foldl_dictInsert (l : List Block) :
    ∀ s x, x ∈ l.foldl dictInsert s → x ∈ s ∨ x ∈ l := by
  induction l with
  | nil =>
    intro s x hx
    exact Or.inl hx
  | cons b l ih =>
    intro s x hx
    rcases ih (dictInsert s b) x hx with h | h
    · rcases mem_dictInsert s b x h with h1 | h1
      · exact Or.inl h1
      · exact Or.inr (h1 ▸ List.mem_cons_self b l)
    · exact Or.inr (List.mem_cons_of_mem b h)

theorem nodup_foldl_dictInsert (l : List Block) :
    ∀ s, (s.map Block.index).Nodup →
      ((l.foldl dictInsert s).map Block.index).Nodup := by
  induction l with
  | nil =>
    intro s h
    exact h
  | cons b l ih =>
    intro s h
    exact ih _ (nodup_keys_dictInsert s b h)

theorem key_mem_foldl_dictInsert (l : List Block) :
    ∀ s j, (∃ x ∈ s, x.index = j) → ∃ x ∈ l.foldl dictInsert s, x.index = j := by
  induction l with
  | nil =>
    intro s j h
    exact h
  | cons b l ih =>
    intro s j h
    exact ih _ j (key_mem_dictInsert s b j h)

theorem key_of_foldl_dictInsert (l : List Block) :
    ∀ s j, (∃ x ∈ l, x.index = j) → ∃ x ∈ l.foldl dictInsert s, x.index = j := by
  induction l with
  | nil =>
    intro s j h
    rcases h with ⟨x, hx, _⟩
    exact absurd hx (List.not_mem_nil x)
  | cons b l ih =>
    intro s j h
    rcases h with ⟨x, hx, hxj⟩
    rcases List.mem_cons.mp hx with rfl | hx1
    · exact key_mem_foldl_dictInsert l (dictInsert s x) j (hxj ▸ key_self_dictInsert s x)
    · exact ih _ j ⟨x, hx1, hxj⟩

theorem stashFind_isSome_iff (s : List Block) (j : Int) :
    (stashFind s j).isSome ↔ ∃ x ∈ s, x.index = j := by
  unfold stashFind
  rw [List.find?_isSome]
  constructor
  · rintro ⟨x, hx, hxj⟩
    exact ⟨x, hx, beq_iff_eq.mp hxj⟩
  · rintro ⟨x, hx, hxj⟩
    exact ⟨x, hx, beq_iff_eq.mpr hxj⟩

theorem stashFind_eq_some (s : List Block) (j : Int) (b : Block)
    (h : stashFind s j = some b) : b ∈ s ∧ b.index = j :=
  ⟨List.mem_of_find?_eq_some h, by simpa using List.find?_some h⟩

theorem stashFind_eq_none (s : List Block) (j : Int)
    (h : stashFind s j = none) : ∀ x ∈ s, x.index ≠ j := by
  intro x hx hxj
  exact absurd (beq_iff_eq.mpr hxj) (by simpa using List.find?_eq_none.mp h x hx)

theorem eq_of_mem_nodup_keys (s : List Block) (h : (s.map Block.index).Nodup)
    (a b : Block) (ha : a ∈ s) (hb : b ∈ s) (hab : a.index = b.index) : a = b :=
  List.inj_on_of_nodup_map h ha hb hab

/-! ## Path read lemmas -/

theorem mem_getBlocksList (store : Nat → Option Bytes) (Z : Nat) (p : List Nat)
    (b : Block) :
    b ∈ getBlocksList store Z p ↔ ∃ n ∈ p, b ∈ readNode store Z n := by
  unfold getBlocksList
  constructor
  · intro hb
    rcases List.mem_flatMap.mp hb with ⟨k, _, hkb⟩
    rcases List.mem_flatMap.mp hkb with ⟨n, hn, hnb⟩
    exact ⟨n, List.mem_of_mem_take hn, hnb⟩
  · rintro ⟨n, hn, hnb⟩
    have hpos : 0 < p.length := List.length_pos.mpr (List.ne_nil_of_mem hn)
    refine List.mem_flatMap.mpr ⟨p.length - 1, List.mem_range.mpr (by omega), ?_⟩
    refine List.mem_flatMap.mpr ⟨n, ?_, hnb⟩
    have heq : p.length - 1 + 1 = p.length := by omega
    rw [heq, List.take_length]
    exact hn

/-! ## Eviction lemmas -/

theorem chosenAt_subset (Z L : Nat) (pos : Int → Nat) (tpath : List Nat)
    (level : Nat) (stash : List Block) (b : Block)
    (hb : b ∈ chosenAt Z L pos tpath level stash) : b ∈ stash :=
  List.mem_of_mem_filter (List.mem_of_mem_take hb)

theorem evictLevel_sublist (Z L : Nat) (pos : Int → Nat) (tpath : List Nat)
    (level : Nat) (stash : List Block) :
    (evictLevel Z L pos tpath level stash).1.Sublist stash :=
  List.filter_sublist _

theorem evictLevel_bucket_length (Z L : Nat) (pos : Int → Nat) (tpath : List Nat)
    (level : Nat) (stash : List Block) :
    (evictLevel Z L pos tpath level stash).2.blocks.length = Z := by
  show (chosenAt Z L pos tpath level stash ++
    List.replicate (Z - (chosenAt Z L pos tpath level stash).length) Block.dummy).length = Z
  have hle : (chosenAt Z L pos tpath level stash).length ≤ Z := by
    unfold chosenAt
    simp [List.length_take]
  simp only [List.length_append, List.length_replicate]
  omega

theorem evictLevel_bucket_mem (Z L : Nat) (pos : Int → Nat) (tpath : List Nat)
    (level : Nat) (stash : List Block) (b : Block)
    (hb : b ∈ (evictLevel Z L pos tpath level stash).2.blocks) :
    b = Block.dummy ∨ (b ∈ stash ∧
      tpath.getD level 0 = (rootToLeafPath L (pos b.index)).getD level 0) := by
  rcases List.mem_append.mp hb with h | h
  · right
    refine ⟨chosenAt_subset Z L pos tpath level stash b h, ?_⟩
    have hcond := List.of_mem_filter (List.mem_of_mem_take h)
    exact beq_iff_eq.mp hcond
  · exact Or.inl (List.eq_of_mem_replicate h)

theorem evictLevel_dispatch (Z L : Nat) (pos : Int → Nat) (tpath : List Nat)
    (level : Nat) (stash : List Block)
    (hnd : (stash.map Block.index).Nodup) (b : Block) (hb : b ∈ stash) :
    b ∈ (evictLevel Z L pos tpath level stash).1 ∨
      b ∈ (evictLevel Z L pos tpath level stash).2.blocks := by
  by_cases hany :
      ((chosenAt Z L pos tpath level stash).any fun c => c.index == b.index) = true
  · right
    rcases List.any_eq_true.mp hany with ⟨c, hc, hcb⟩
    have hceq : c = b :=
      eq_of_mem_nodup_keys stash hnd c b
        (chosenAt_subset Z L pos tpath level stash c hc) hb (beq_iff_eq.mp hcb)
    exact List.mem_append_left _ (hceq ▸ hc)
  · left
    refine List.mem_filter.mpr ⟨hb, ?_⟩
    cases hx : ((chosenAt Z L pos tpath level stash).any fun c => c.index == b.index) with
    | true => exact absurd hx hany
    | false => rfl

theorem evictLevels_sublist (Z L : Nat) (pos : Int → Nat) (tpath : List Nat) :
    ∀ levels stash, (evictLevels Z L pos tpath levels stash).1.Sublist stash := by
  intro levels
  induction levels with
  | nil =>
    intro stash
    exact List.Sublist.refl stash
  | cons level rest ih =>
    intro stash
    exact (ih _).trans (evictLevel_sublist Z L pos tpath level stash)

theorem evictLevels_buckets_length (Z L : Nat) (pos : Int → Nat) (tpath : List Nat) :
    ∀ levels stash, (evictLevels Z L pos tpath levels stash).2.length = levels.length := by
  intro levels
  induction levels with
  | nil =>
    intro stash
    rfl
  | cons level rest ih =>
    intro stash
    show ((evictLevels Z L pos tpath rest _).2.length) + 1 = rest.length + 1
    rw [ih]

theorem evictLevels_bucket_len (Z L : Nat) (pos : Int → Nat) (tpath : List Nat) :
    ∀ levels stash bu, bu ∈ (evictLevels Z L pos tpath levels stash).2 →
      bu.blocks.length = Z := by
  intro levels
  induction levels with
  | nil =>
    intro stash bu hbu
    exact absurd hbu (List.not_mem_nil bu)
  | cons level rest ih =>
    intro stash bu hbu
    rcases List.mem_cons.mp hbu with rfl | h
    · exact evictLevel_bucket_length Z L pos tpath level stash
    · exact ih _ bu h

theorem evictLevels_bucket_blocks (Z L : Nat) (pos : Int → Nat) (tpath : List Nat) :
    ∀ levels stash j (hj : j < (evictLevels Z L pos tpath levels stash).2.length)
      b, b ∈ ((evictLevels Z L pos tpath levels stash).2.get ⟨j, hj⟩).blocks →
      b = Block.dummy ∨ (b ∈ stash ∧ ∃ hjl : j < levels.length,
        tpath.getD (levels.get ⟨j, hjl⟩) 0
          = (rootToLeafPath L (pos b.index)).getD (levels.get ⟨j, hjl⟩) 0) := by
  intro levels
  induction levels with
  | nil =>
    intro stash j hj b hb
    exact absurd hj (by simp [evictLevels])
  | cons level rest ih =>
    intro stash j hj b hb
    match j with
    | 0 =>
      rcases evictLevel_bucket_mem Z L pos tpath level stash b hb with h | ⟨h1, h2⟩
      · exact Or.inl h
      · exact Or.inr ⟨h1, Nat.succ_pos rest.length, h2⟩
    | j + 1 =>
      have hcons : (level :: rest).length = rest.length + 1 := rfl
      have hj2 : j < (evictLevels Z L pos tpath rest
          (evictLevel Z L pos tpath level stash).1).2.length := by
        have ha := evictLevels_buckets_length Z L pos tpath (level :: rest) stash
        have hb2 := evictLevels_buckets_length Z L pos tpath rest
          (evictLevel Z L pos tpath level stash).1
        omega
      rcases ih (evictLevel Z L pos tpath level stash).1 j hj2 b hb with h | ⟨h1, hjl, h2⟩
      · exact Or.inl h
      · refine Or.inr ⟨(evictLevel_sublist Z L pos tpath level stash).mem h1, ?_, h2⟩
        omega

theorem evictLevels_dispatch (Z L : Nat) (pos : Int → Nat) (tpath : List Nat) :
    ∀ levels stash, (stash.map Block.index).Nodup → ∀ b ∈ stash,
      b ∈ (evictLevels Z L pos tpath levels stash).1 ∨
      ∃ j, ∃ hj : j < (evictLevels Z L pos tpath levels stash).2.length,
        b ∈ ((evictLevels Z L pos tpath levels stash).2.get ⟨j, hj⟩).blocks := by
  intro levels
  induction levels with
  | nil =>
    intro stash _ b hb
    exact Or.inl hb
  | cons level rest ih =>
    intro stash hnd b hb
    rcases evictLevel_dispatch Z L pos tpath level stash hnd b hb with h | h
    · have hnd2 : ((evictLevel Z L pos tpath level stash).1.map Block.index).Nodup :=
        List.Nodup.sublist ((evictLevel_sublist Z L pos tpath level stash).map _) hnd
      rcases ih (evictLevel Z L pos tpath level stash).1 hnd2 b h with h1 | ⟨j, hj, hbj⟩
      · exact Or.inl h1
      · have hcons : (level :: rest).length = rest.length + 1 := rfl
        have ha := evictLevels_buckets_length Z L pos tpath (level :: rest) stash
        have hb2 := evictLevels_buckets_length Z L pos tpath rest
          (evictLevel Z L pos tpath level stash).1
        exact Or.inr ⟨j + 1, by omega, hbj⟩
    · have hcons : (level :: rest).length = rest.length + 1 := rfl
      have ha := evictLevels_buckets_length Z L pos tpath (level :: rest) stash
      exact Or.inr ⟨0, by omega, h⟩

/-! ## Path write lemmas -/

theorem writeStoreFold_not_mem (pairs : List (Nat × Bucket)) :
    ∀ store n, n ∉ pairs.map Prod.fst → writeStoreFold store pairs n = store n := by
  induction pairs with
  | nil =>
    intro store n _
    rfl
  | cons pr rest ih =>
    intro store n hn
    have hn1 : n ∉ rest.map Prod.fst := fun h => hn (List.mem_cons_of_mem _ h)
    have hn2 : n ≠ pr.1 := fun h => hn (h ▸ List.mem_cons_self _ _)
    show writeStoreFold (storeWrite store pr.1 (encodeBucket pr.2)) rest n = store n
    rw [ih _ n hn1]
    unfold storeWrite
    rw [if_neg hn2]

theorem writeStoreFold_cases (pairs : List (Nat × Bucket)) :
    ∀ store n, writeStoreFold store pairs n = store n ∨
      ∃ pr ∈ pairs, pr.1 = n ∧ writeStoreFold store pairs n = some (encodeBucket pr.2) := by
  induction pairs with
  | nil =>
    intro store n
    exact Or.inl rfl
  | cons pr rest ih =>
    intro store n
    rcases ih (storeWrite store pr.1 (encodeBucket pr.2)) n with h | ⟨pr2, hpr2, hn, hv⟩
    · by_cases hn : n = pr.1
      · refine Or.inr ⟨pr, List.mem_cons_self _ _, hn.symm, ?_⟩
        show writeStoreFold (storeWrite store pr.1 (encodeBucket pr.2)) rest n = _
        rw [h]
        unfold storeWrite
        rw [if_pos hn]
      · left
        show writeStoreFold (storeWrite store pr.1 (encodeBucket pr.2)) rest n = store n
        rw [h]
        unfold storeWrite
        rw [if_neg hn]
    · exact Or.inr ⟨pr2, List.mem_cons_of_mem _ hpr2, hn, hv⟩

theorem writeStoreFold_mem_nodup (pairs : List (Nat × Bucket))
    (hnd : (pairs.map Prod.fst).Nodup) :
    ∀ store pr, pr ∈ pairs → writeStoreFold store pairs pr.1 = some (encodeBucket pr.2) := by
  induction pairs with
  | nil =>
    intro store pr hpr
    exact absurd hpr (List.not_mem_nil pr)
  | cons hd rest ih =>
    intro store pr hpr
    have hnd2 : (rest.map Prod.fst).Nodup := (List.nodup_cons.mp hnd).2
    rcases List.mem_cons.mp hpr with rfl | h
    · have hnm : pr.1 ∉ rest.map Prod.fst := (List.nodup_cons.mp hnd).1
      show writeStoreFold (storeWrite store pr.1 (encodeBucket pr.2)) rest pr.1 = _
      rw [writeStoreFold_not_mem rest _ pr.1 hnm]
      unfold storeWrite
      rw [if_pos rfl]
    · exact ih hnd2 _ pr h

/-! ## The abstract memory and the Path ORAM invariant -/

/-- Valid logical block indices: `[0, N)`. -/
def goodIndex (N : Nat) (i : Int) : Prop := 0 ≤ i ∧ i < (N : Int)

instance (N : Nat) (i : Int) : Decidable (goodIndex N i) := by
  unfold goodIndex
  infer_instance

/-- One request against the abstract memory: a `WRITE` sets the entry, a
`READ` leaves it. -/
def writeUpd (A : Int → Option Bytes) (i : Int) (d : Bytes) : Int → Option Bytes :=
  fun j => if j = i then some d else A j

def applyReq (A : Int → Option Bytes) (r : Req) : Int → Option Bytes :=
  match r.op with
  | .WRITE => writeUpd A r.index r.data
  | .READ => A

def lastWritten : (Int → Option Bytes) → List Req → Int → Option Bytes
  | A, [] => A
  | A, r :: rs => lastWritten (applyReq A r) rs

/-- The fresh abstract memory: nothing ever written. -/
def emptyMap : Int → Option Bytes := fun _ => none

/-- What one access should return, per the source semantics: a `READ` yields
the current value, a `WRITE` yields the just-written data when the block
exists and the empty byte sequence on a first write; a never-written block
reads as the empty byte sequence. -/
def specOut (A : Int → Option Bytes) (r : Req) : Bytes :=
  match A r.index, r.op with
  | some v, .READ => v
  | some _, .WRITE => r.data
  | none, _ => []

def specOuts : (Int → Option Bytes) → List Req → List Bytes
  | _, [] => []
  | A, r :: rs => specOut A r :: specOuts (applyReq A r) rs

/-- A block carrying a valid index and the current abstract value. -/
def blockGood (N : Nat) (A : Int → Option Bytes) (b : Block) : Prop :=
  goodIndex N b.index ∧ A b.index = some b.data

/-- Every backend object decodes to a bucket of `Z` blocks whose non-dummy
blocks carry current data and sit on the path of their position-map leaf. -/
def storeGood (st : OramState) (A : Int → Option Bytes) : Prop :=
  ∀ n blob, st.store n = some blob →
    ∃ bu, decodeBucket blob = .ok bu ∧ bu.blocks.length = st.Z ∧
      ∀ b ∈ bu.blocks, b.index ≠ DUMMY_BLOCK_INDEX →
        blockGood st.N A b ∧ n ∈ rootToLeafPath st.L (st.position b.index)

/-- The client/backend invariant maintained between accesses: consistent
geometry, position map into the leaf range, a stash of distinct valid blocks
holding current data, a backend satisfying `storeGood`, writes confined to
`[0, N)`, and every written index present in the stash or in some decoded
bucket. -/
def Inv (A : Int → Option Bytes) (st : OramState) : Prop :=
  st.numLeaves = 2 ^ st.L ∧
  (∀ i : Int, goodIndex st.N i → st.position i < st.numLeaves) ∧
  (st.stash.map Block.index).Nodup ∧
  (∀ b ∈ st.stash, blockGood st.N A b) ∧
  storeGood st A ∧
  (∀ j d, A j = some d → goodIndex st.N j) ∧
  (∀ j d, A j = some d →
    (∃ b ∈ st.stash, b.index = j) ∨
    ∃ n blob bu b, st.store n = some blob ∧ decodeBucket blob = .ok bu ∧
      b ∈ bu.blocks ∧ b.index = j)

/-! ## Drain-stage lemmas -/

theorem drainStash_good (A : Int → Option Bytes) (st : OramState) (p : List Nat)
    (hstash : ∀ b ∈ st.stash, blockGood st.N A b) (hstore : storeGood st A) :
    ∀ b ∈ drainStash st p, blockGood st.N A b := by
  intro b hb
  rcases mem_foldl_dictInsert _ _ b hb with h | h
  · exact hstash b h
  · have hmem := List.mem_of_mem_filter h
    have hnd : b.index ≠ DUMMY_BLOCK_INDEX := by
      have := List.of_mem_filter h
      simpa using this
    rcases (mem_getBlocksList _ _ _ _).mp hmem with ⟨n, _, hbn⟩
    unfold readNode reconstructOrDummies at hbn
    cases hst : st.store n with
    | none =>
      rw [hst] at hbn
      simp only [Option.getD_none] at hbn
      rw [decodeBucket_nil] at hbn
      exact absurd rfl ((List.eq_of_mem_replicate hbn) ▸ hnd)
    | some blob =>
      rw [hst] at hbn
      simp only [Option.getD_some] at hbn
      rcases hstore n blob hst with ⟨bu, hdec, _, hgood⟩
      rw [hdec] at hbn
      exact (hgood b hbn hnd).1

theorem drainStash_nodup (st : OramState) (p : List Nat)
    (h : (st.stash.map Block.index).Nodup) :
    ((drainStash st p).map Block.index).Nodup :=
  nodup_foldl_dictInsert _ _ h

theorem drainStash_key_of_stash (st : OramState) (p : List Nat) (j : Int)
    (h : ∃ x ∈ st.stash, x.index = j) : ∃ x ∈ drainStash st p, x.index = j :=
  key_mem_foldl_dictInsert _ _ j h

theorem drainStash_key_of_node (st : OramState) (p : List Nat) (n : Nat)
    (blob : Bytes) (bu : Bucket) (b : Block)
    (hst : st.store n = some blob) (hdec : decodeBucket blob = .ok bu)
    (hb : b ∈ bu.blocks) (hn : n ∈ p) (hnd : b.index ≠ DUMMY_BLOCK_INDEX) :
    ∃ x ∈ drainStash st p, x.index = b.index := by
  apply key_of_foldl_dictInsert
  refine ⟨b, ?_, rfl⟩
  apply List.mem_filter.mpr
  refine ⟨?_, by simpa using hnd⟩
  apply (mem_getBlocksList _ _ _ _).mpr
  refine ⟨n, hn, ?_⟩
  unfold readNode reconstructOrDummies
  rw [hst]
  simp only [Option.getD_some]
  rw [hdec]
  exact hb

theorem drainStash_found_iff (A : Int → Option Bytes) (st : OramState) (i : Int)
    (hInv : Inv A st) (hi : goodIndex st.N i) :
    (∃ x ∈ drainStash st (rootToLeafPath st.L (st.position i)), x.index = i)
      ↔ ∃ d, A i = some d := by
  obtain ⟨hleaves, hpos, hnodup, hstash, hstore, hdom, hcomp⟩ := hInv
  constructor
  · rintro ⟨x, hx, hxi⟩
    exact ⟨x.data, hxi ▸ (drainStash_good A st _ hstash hstore x hx).2⟩
  · rintro ⟨d, hd⟩
    rcases hcomp i d hd with ⟨b, hb, hbi⟩ | ⟨n, blob, bu, b, hst, hdec, hbbu, hbi⟩
    · exact drainStash_key_of_stash st _ i ⟨b, hb, hbi⟩
    · have hne : b.index ≠ DUMMY_BLOCK_INDEX := by
        rw [hbi]
        unfold DUMMY_BLOCK_INDEX
        rcases hi with ⟨hi0, _⟩
        omega
      rcases hstore n blob hst with ⟨bu2, hdec2, _, hgood⟩
      have hbu2 : bu2 = bu := by
        rw [hdec] at hdec2
        exact (Except.ok.inj hdec2).symm
      subst hbu2
      have hloc := (hgood b hbbu hne).2
      rw [hbi] at hloc
      have := drainStash_key_of_node st _ n blob bu2 b hst hdec hbbu hloc hne
      rw [hbi] at this
      exact this

/-! ## Service-stage lemmas -/

theorem serviceStash_keys_nodup (stash1 : List Block) (op : Operation) (i : Int)
    (d : Bytes) (hnd : (stash1.map Block.index).Nodup) :
    ((serviceStash stash1 (stashFind stash1 i) op i d).map Block.index).Nodup := by
  cases hf : stashFind stash1 i with
  | some blk =>
    cases op with
    | READ => exact hnd
    | WRITE =>
      show ((stash1.map fun x =>
        if x.index == i then { x with data := d } else x).map Block.index).Nodup
      rw [List.map_map]
      have heq : (stash1.map (Block.index ∘ fun x =>
          if x.index == i then { x with data := d } else x)) = stash1.map Block.index := by
        apply List.map_congr_left
        intro x _
        simp only [Function.comp_apply]
        by_cases hxi : (x.index == i) = true
        · rw [if_pos hxi]
        · rw [if_neg hxi]
      rw [heq]
      exact hnd
  | none =>
    cases op with
    | READ => exact hnd
    | WRITE =>
      show ((stash1 ++ [({ data := d, index := i } : Block)]).map Block.index).Nodup
      rw [List.map_append]
      refine List.Nodup.append hnd (List.nodup_singleton _) ?_
      intro a ha hb
      rcases List.mem_map.mp ha with ⟨x, hx, hxa⟩
      have hai : a = i := by simpa using hb
      exact stashFind_eq_none stash1 i hf x hx (by rw [hxa, hai])

theorem serviceStash_good_found (N : Nat) (A : Int → Option Bytes)
    (stash1 : List Block) (i : Int) (d : Bytes) (blk : Block)
    (hgood : ∀ b ∈ stash1, blockGood N A b) (hi : goodIndex N i) :
    ∀ b ∈ serviceStash stash1 (some blk) .WRITE i d, blockGood N (writeUpd A i d) b := by
  intro b hb
  rcases List.mem_map.mp hb with ⟨x, hx, hEq⟩
  by_cases hxi : (x.index == i) = true
  · rw [if_pos hxi] at hEq
    have hxig : x.index = i := beq_iff_eq.mp hxi
    subst hEq
    refine ⟨?_, ?_⟩
    · show goodIndex N x.index
      rw [hxig]
      exact hi
    · show writeUpd A i d x.index = some d
      unfold writeUpd
      rw [if_pos hxig]
  · rw [if_neg hxi] at hEq
    subst hEq
    have hxig : x.index ≠ i := by simpa using hxi
    refine ⟨(hgood x hx).1, ?_⟩
    unfold writeUpd
    rw [if_neg hxig]
    exact (hgood x hx).2

theorem serviceStash_good_absent (N : Nat) (A : Int → Option Bytes)
    (stash1 : List Block) (i : Int) (d : Bytes)
    (hf : stashFind stash1 i = none)
    (hgood : ∀ b ∈ stash1, blockGood N A b) (hi : goodIndex N i) :
    ∀ b ∈ serviceStash stash1 none .WRITE i d, blockGood N (writeUpd A i d) b := by
  intro b hb
  rcases List.mem_append.mp hb with h | h
  · have hbi : b.index ≠ i := stashFind_eq_none stash1 i hf b h
    refine ⟨(hgood b h).1, ?_⟩
    unfold writeUpd
    rw [if_neg hbi]
    exact (hgood b h).2
  · have hbeq : b = { data := d, index := i } := List.mem_singleton.mp h
    subst hbeq
    refine ⟨hi, ?_⟩
    show writeUpd A i d i = some d
    unfold writeUpd
    rw [if_pos rfl]

theorem serviceStash_key_pres (stash1 : List Block) (found : Option Block)
    (op : Operation) (i : Int) (d : Bytes) (j : Int)
    (h : ∃ x ∈ stash1, x.index = j) :
    ∃ x ∈ serviceStash stash1 found op i d, x.index = j := by
  rcases h with ⟨x, hx, hxj⟩
  cases found with
  | some blk =>
    cases op with
    | READ => exact ⟨x, hx, hxj⟩
    | WRITE =>
      refine ⟨if x.index == i then { x with data := d } else x,
        List.mem_map_of_mem _ hx, ?_⟩
      by_cases hxi : (x.index == i) = true
      · rw [if_pos hxi]
        exact hxj
      · rw [if_neg hxi]
        exact hxj
  | none =>
    cases op with
    | READ => exact ⟨x, hx, hxj⟩
    | WRITE => exact ⟨x, List.mem_append_left _ hx, hxj⟩

theorem serviceStash_key_write_found (stash1 : List Block) (i : Int) (d : Bytes)
    (blk : Block) (hf : stashFind stash1 i = some blk) :
    ∃ x ∈ serviceStash stash1 (some blk) .WRITE i d, x.index = i := by
  obtain ⟨hmem, hidx⟩ := stashFind_eq_some stash1 i blk hf
  refine ⟨if blk.index == i then { blk with data := d } else blk,
    List.mem_map_of_mem _ hmem, ?_⟩
  rw [if_pos (beq_iff_eq.mpr hidx)]
  exact hidx

theorem serviceStash_key_write_absent (stash1 : List Block) (i : Int) (d : Bytes) :
    ∃ x ∈ serviceStash stash1 none .WRITE i d, x.index = i :=
  ⟨{ data := d, index := i }, List.mem_append_right _
    (List.mem_singleton.mpr rfl), rfl⟩

theorem serviceStash_read (stash1 : List Block) (found : Option Block)
    (i : Int) (d : Bytes) : serviceStash stash1 found .READ i d = stash1 := by
  cases found <;> rfl

theorem levelsDesc_length (L : Nat) : (levelsDesc L).length = L + 1 := by
  simp [levelsDesc]

theorem levelsDesc_get (L j : Nat) (hj : j < (levelsDesc L).length) :
    (levelsDesc L).get ⟨j, hj⟩ = L - j := by
  have hj2 : j < L + 1 := by
    have := levelsDesc_length L
    omega
  simp [levelsDesc, List.get_eq_getElem, List.getElem_reverse, List.getElem_range]

theorem writePath_node (store : Nat → Option Bytes) (p : List Nat)
    (bus : List Bucket) (hnd : p.Nodup) (hlen : bus.length = p.length)
    (k : Nat) (hk : k < p.length) (hkr : k < bus.reverse.length) :
    writePathStore store p bus (p.get ⟨k, hk⟩)
      = some (encodeBucket (bus.reverse.get ⟨k, hkr⟩)) := by
  have hzk : k < (p.zip bus.reverse).length := by
    rw [List.length_zip, List.length_reverse]
    omega
  have hpair : (p.get ⟨k, hk⟩, bus.reverse.get ⟨k, hkr⟩) ∈ p.zip bus.reverse := by
    have h1 : (p.zip bus.reverse).get ⟨k, hzk⟩
        = (p.get ⟨k, hk⟩, bus.reverse.get ⟨k, hkr⟩) := by
      simp [List.get_eq_getElem, List.getElem_zip]
    rw [← h1]
    exact List.get_mem _ _ _
  have hknd : ((p.zip bus.reverse).map Prod.fst).Nodup := by
    rw [List.map_fst_zip _ _ (by rw [List.length_reverse]; omega)]
    exact hnd
  exact writeStoreFold_mem_nodup _ hknd store _ hpair

theorem writePath_untouched (store : Nat → Option Bytes) (p : List Nat)
    (bus : List Bucket) (hlen : bus.length = p.length) (n : Nat) (hn : n ∉ p) :
    writePathStore store p bus n = store n := by
  apply writeStoreFold_not_mem
  rw [List.map_fst_zip _ _ (by rw [List.length_reverse]; omega)]
  exact hn

theorem bucket_written (store : Nat → Option Bytes) (p : List Nat)
    (bus : List Bucket) (hnd : p.Nodup) (hlen : bus.length = p.length)
    (jj : Nat) (hj : jj < bus.length) :
    ∃ n blob, writePathStore store p bus n = some blob ∧
      decodeBucket blob = .ok (bus.get ⟨jj, hj⟩) := by
  have hk : bus.length - 1 - jj < p.length := by omega
  have hkr : bus.length - 1 - jj < bus.reverse.length := by
    rw [List.length_reverse]
    omega
  have hrev : bus.reverse.get ⟨bus.length - 1 - jj, hkr⟩ = bus.get ⟨jj, hj⟩ := by
    have hidx : bus.length - 1 - (bus.length - 1 - jj) = jj := by omega
    simp [List.get_eq_getElem, List.getElem_reverse, hidx]
  refine ⟨p.get ⟨bus.length - 1 - jj, hk⟩, encodeBucket (bus.get ⟨jj, hj⟩), ?_,
    decodeBucket_encodeBucket _⟩
  rw [← hrev]
  exact writePath_node store p bus hnd hlen _ hk hkr

/-- One in-range access preserves the Path ORAM invariant, updating the
abstract memory according to the request. -/
theorem inv_step (A : Int → Option Bytes) (st : OramState) (op : Operation)
    (i : Int) (d : Bytes) (ℓ : Nat) (hInv : Inv A st) (hi : goodIndex st.N i)
    (hl : ℓ < st.numLeaves) :
    Inv (applyReq A ⟨op, i, d, ℓ⟩)
      { st with
        position := posUpdate st.position i ℓ
        stash := (evictLevels st.Z st.L (posUpdate st.position i ℓ)
          (rootToLeafPath st.L (st.position i)) (levelsDesc st.L)
          (serviceStash (drainStash st (rootToLeafPath st.L (st.position i)))
            (stashFind (drainStash st (rootToLeafPath st.L (st.position i))) i)
            op i d)).1
        store := writePathStore st.store (rootToLeafPath st.L (st.position i))
          (evictLevels st.Z st.L (posUpdate st.position i ℓ)
            (rootToLeafPath st.L (st.position i)) (levelsDesc st.L)
            (serviceStash (drainStash st (rootToLeafPath st.L (st.position i)))
              (stashFind (drainStash st (rootToLeafPath st.L (st.position i))) i)
              op i d)).2 } := by
  have hI := hInv
  obtain ⟨hleaves, hpos, hnodup, hstash, hstore, hdom, hcomp⟩ := hI
  set p := rootToLeafPath st.L (st.position i) with hpdef
  set pos2 := posUpdate st.position i ℓ with hpos2def
  set s1 := drainStash st p with hs1def
  set s2 := serviceStash s1 (stashFind s1 i) op i d with hs2def
  set pr := evictLevels st.Z st.L pos2 p (levelsDesc st.L) s2 with hprdef
  have hposi : st.position i < 2 ^ st.L := by
    rw [← hleaves]
    exact hpos i hi
  have hplen : p.length = st.L + 1 := by
    rw [hpdef]
    exact rootToLeafPath_length st.L _ hposi
  have hpnd : p.Nodup := by
    rw [hpdef]
    exact rootToLeafPath_nodup st.L _ hposi
  have hs1nd : (s1.map Block.index).Nodup := by
    rw [hs1def]
    exact drainStash_nodup st p hnodup
  have hs1good : ∀ b ∈ s1, blockGood st.N A b := by
    rw [hs1def]
    exact drainStash_good A st p hstash hstore
  have hs2nd : (s2.map Block.index).Nodup := by
    rw [hs2def]
    exact serviceStash_keys_nodup s1 op i d hs1nd
  have hs2good : ∀ b ∈ s2, blockGood st.N (applyReq A ⟨op, i, d, ℓ⟩) b := by
    cases op with
    | READ =>
      rw [hs2def, serviceStash_read]
      exact hs1good
    | WRITE =>
      show ∀ b ∈ s2, blockGood st.N (writeUpd A i d) b
      cases hf : stashFind s1 i with
      | some blk =>
        rw [hs2def, hf]
        exact serviceStash_good_found st.N A s1 i d blk hs1good hi
      | none =>
        rw [hs2def, hf]
        exact serviceStash_good_absent st.N A s1 i d hf hs1good hi
  have hpos2 : ∀ j : Int, goodIndex st.N j → pos2 j < st.numLeaves := by
    intro j hj
    rw [hpos2def]
    unfold posUpdate
    by_cases hji : j = i
    · rw [if_pos hji]
      exact hl
    · rw [if_neg hji]
      exact hpos j hj
  have hpos2ne : ∀ j : Int, j ≠ i → pos2 j = st.position j := by
    intro j hj
    rw [hpos2def]
    unfold posUpdate
    rw [if_neg hj]
  have hA2ne : ∀ j : Int, j ≠ i → applyReq A ⟨op, i, d, ℓ⟩ j = A j := by
    intro j hj
    cases op with
    | READ => rfl
    | WRITE =>
      show writeUpd A i d j = A j
      unfold writeUpd
      rw [if_neg hj]
  have hbuslen : pr.2.length = st.L + 1 := by
    rw [hprdef, evictLevels_buckets_length]
    exact levelsDesc_length st.L
  have hbuslenp : pr.2.length = p.length := by omega
  have hsub : pr.1.Sublist s2 :=
    evictLevels_sublist st.Z st.L pos2 p (levelsDesc st.L) s2
  have hkey_to_goal : ∀ j : Int, (∃ x ∈ s2, x.index = j) →
      (∃ b ∈ pr.1, b.index = j) ∨
        ∃ n blob bu b, writePathStore st.store p pr.2 n = some blob ∧
          decodeBucket blob = .ok bu ∧ b ∈ bu.blocks ∧ b.index = j := by
    rintro j ⟨x, hx, hxj⟩
    rcases evictLevels_dispatch st.Z st.L pos2 p (levelsDesc st.L) s2 hs2nd x hx
      with h | ⟨jj, hjj, hxbu⟩
    · exact Or.inl ⟨x, h, hxj⟩
    · right
      have hjj2 : jj < pr.2.length := hjj
      rcases bucket_written st.store p pr.2 hpnd hbuslenp jj hjj2 with ⟨n, blob, hwn, hdec⟩
      exact ⟨n, blob, _, x, hwn, hdec, hxbu, hxj⟩
  unfold Inv
  refine ⟨hleaves, ?_, ?_, ?_, ?_, ?_, ?_⟩
  · intro j hj
    exact hpos2 j hj
  · show ((pr.1).map Block.index).Nodup
    exact hs2nd.sublist (hsub.map Block.index)
  · intro b hb
    have hb2 : b ∈ pr.1 := hb
    exact hs2good b (hsub.mem hb2)
  · intro n blob hn
    show ∃ bu, decodeBucket blob = .ok bu ∧ bu.blocks.length = st.Z ∧
      ∀ b ∈ bu.blocks, b.index ≠ DUMMY_BLOCK_INDEX →
        blockGood st.N (applyReq A ⟨op, i, d, ℓ⟩) b ∧
          n ∈ rootToLeafPath st.L (pos2 b.index)
    have hn2 : writePathStore st.store p pr.2 n = some blob := hn
    by_cases hnp : n ∈ p
    · rcases List.mem_iff_get.mp hnp with ⟨⟨k, hk⟩, hkn⟩
      have hkL : k ≤ st.L := by omega
      have hkr : k < pr.2.reverse.length := by
        rw [List.length_reverse]
        omega
      have hwn : writePathStore st.store p pr.2 n
          = some (encodeBucket (pr.2.reverse.get ⟨k, hkr⟩)) := by
        rw [← hkn]
        exact writePath_node st.store p pr.2 hpnd hbuslenp k hk hkr
      rw [hwn] at hn2
      have hblob := (Option.some.inj hn2).symm
      have hjj : st.L - k < pr.2.length := by omega
      have hrevk : pr.2.reverse.get ⟨k, hkr⟩ = pr.2.get ⟨st.L - k, hjj⟩ := by
        have hidx : pr.2.length - 1 - k = st.L - k := by omega
        simp [List.get_eq_getElem, List.getElem_reverse, hidx]
      refine ⟨pr.2.get ⟨st.L - k, hjj⟩, ?_, ?_, ?_⟩
      · rw [hblob, hrevk]
        exact decodeBucket_encodeBucket _
      · have hbu_mem : pr.2.get ⟨st.L - k, hjj⟩ ∈ pr.2 := List.get_mem _ _ _
        exact evictLevels_bucket_len st.Z st.L pos2 p (levelsDesc st.L) s2 _ hbu_mem
      · intro b hbbu hbnd
        rcases evictLevels_bucket_blocks st.Z st.L pos2 p (levelsDesc st.L) s2
            (st.L - k) hjj b hbbu with hdum | ⟨hbs2, hjl, hcond⟩
        · rw [hdum] at hbnd
          exact absurd rfl hbnd
        · have hcondk : p.getD k 0 = (rootToLeafPath st.L (pos2 b.index)).getD k 0 := by
            have hlev : (levelsDesc st.L).get ⟨st.L - k, hjl⟩ = k := by
              rw [levelsDesc_get]
              omega
            rw [hlev] at hcond
            exact hcond
          have hgoodb := hs2good b hbs2
          refine ⟨hgoodb, ?_⟩
          have hposb : pos2 b.index < 2 ^ st.L := by
            rw [← hleaves]
            exact hpos2 b.index hgoodb.1
          have hgetd : p.getD k 0 = p.get ⟨k, hk⟩ := by
            rw [List.getD_eq_getElem _ 0 hk, List.get_eq_getElem]
          have hnk : n = p.getD k 0 := by
            rw [hgetd, hkn]
          rw [hnk, hcondk]
          exact rootToLeafPath_getD_mem st.L _ hposb k hkL
    · rw [writePath_untouched st.store p pr.2 hbuslenp n hnp] at hn2
      rcases hstore n blob hn2 with ⟨bu, hdec, hbuZ, hgoodbu⟩
      refine ⟨bu, hdec, hbuZ, ?_⟩
      intro b hbbu hbnd
      have hold := hgoodbu b hbbu hbnd
      have hbne : b.index ≠ i := by
        intro hbi
        apply hnp
        have hmem := hold.2
        rw [hbi] at hmem
        exact hmem
      refine ⟨⟨hold.1.1, ?_⟩, ?_⟩
      · rw [hA2ne b.index hbne]
        exact hold.1.2
      · rw [hpos2ne b.index hbne]
        exact hold.2
  · intro j dj hj
    by_cases hji : j = i
    · exact hji ▸ hi
    · exact hdom j dj (by rw [← hA2ne j hji]; exact hj)
  · intro j dj hj
    show (∃ b ∈ pr.1, b.index = j) ∨
      ∃ n blob bu b, writePathStore st.store p pr.2 n = some blob ∧
        decodeBucket blob = .ok bu ∧ b ∈ bu.blocks ∧ b.index = j
    by_cases hji : j = i
    · subst hji
      cases op with
      | WRITE =>
        cases hf : stashFind s1 j with
        | some blk =>
          apply hkey_to_goal j
          rw [hs2def, hf]
          exact serviceStash_key_write_found s1 j d blk hf
        | none =>
          apply hkey_to_goal j
          rw [hs2def, hf]
          exact serviceStash_key_write_absent s1 j d
      | READ =>
        have hAj : ∃ dd, A j = some dd := ⟨dj, hj⟩
        have hkeys1 := (drainStash_found_iff A st j hInv hi).mpr hAj
        apply hkey_to_goal j
        rw [hs2def, serviceStash_read]
        exact hkeys1
    · have hAj : A j = some dj := by
        rw [← hA2ne j hji]
        exact hj
      rcases hcomp j dj hAj with ⟨b, hb, hbj⟩ | ⟨n, blob, bu, b, hst, hdec, hbbu, hbj⟩
      · apply hkey_to_goal j
        rw [hs2def]
        apply serviceStash_key_pres
        rw [hs1def]
        exact drainStash_key_of_stash st p j ⟨b, hb, hbj⟩
      · by_cases hnp : n ∈ p
        · have hbnd : b.index ≠ DUMMY_BLOCK_INDEX := by
            have hgj : goodIndex st.N j := hdom j dj hAj
            rw [hbj]
            unfold DUMMY_BLOCK_INDEX
            rcases hgj with ⟨h0, _⟩
            omega
          apply hkey_to_goal j
          rw [hs2def]
          apply serviceStash_key_pres
          rw [hs1def]
          have hkey := drainStash_key_of_node st p n blob bu b hst hdec hbbu hnp hbnd
          rw [hbj] at hkey
          exact hkey
        · right
          refine ⟨n, blob, bu, b, ?_, hdec, hbbu, hbj⟩
          rw [writePath_untouched st.store p pr.2 hbuslenp n hnp]
          exact hst

theorem specOut_read_some (A : Int → Option Bytes) (i : Int) (d : Bytes) (ℓ : Nat)
    (v : Bytes) (h : A i = some v) : specOut A ⟨.READ, i, d, ℓ⟩ = v := by
  unfold specOut
  rw [h]

theorem specOut_write_some (A : Int → Option Bytes) (i : Int) (d : Bytes) (ℓ : Nat)
    (v : Bytes) (h : A i = some v) : specOut A ⟨.WRITE, i, d, ℓ⟩ = d := by
  unfold specOut
  rw [h]

theorem specOut_none (A : Int → Option Bytes) (i : Int) (d : Bytes) (ℓ : Nat)
    (op : Operation) (h : A i = none) : specOut A ⟨op, i, d, ℓ⟩ = [] := by
  unfold specOut
  rw [h]

/-- The value returned by an in-range access is exactly `specOut`: current
value for `READ`, the new data for a `WRITE` on an existing block, and the
empty byte sequence when the block was never written. -/
theorem accessBody_data (A : Int → Option Bytes) (st : OramState) (op : Operation)
    (i : Int) (d : Bytes) (ℓ : Nat) (hInv : Inv A st) (hi : goodIndex st.N i) :
    (accessBody st op i d ℓ).data = specOut A ⟨op, i, d, ℓ⟩ := by
  have hI := hInv
  obtain ⟨hleaves, hpos, hnodup, hstash, hstore, hdom, hcomp⟩ := hI
  show serviceData (stashFind (drainStash st (rootToLeafPath st.L (st.position i))) i) op d
    = specOut A ⟨op, i, d, ℓ⟩
  cases hf : stashFind (drainStash st (rootToLeafPath st.L (st.position i))) i with
  | some b =>
    obtain ⟨hm, hbi⟩ := stashFind_eq_some _ i b hf
    have hg := drainStash_good A st _ hstash hstore b hm
    have hAi : A i = some b.data := by
      rw [← hbi]
      exact hg.2
    cases op with
    | READ =>
      show b.data = _
      rw [specOut_read_some A i d ℓ b.data hAi]
    | WRITE =>
      show d = _
      rw [specOut_write_some A i d ℓ b.data hAi]
  | none =>
    have hAi : A i = none := by
      cases hA : A i with
      | none => rfl
      | some v =>
        rcases (drainStash_found_iff A st i hInv hi).mpr ⟨v, hA⟩ with ⟨x, hx, hxi⟩
        have hsome : (stashFind (drainStash st (rootToLeafPath st.L (st.position i))) i).isSome :=
          (stashFind_isSome_iff _ i).mpr ⟨x, hx, hxi⟩
        rw [hf] at hsome
        exact absurd hsome (by simp)
    show serviceData none op d = _
    rw [specOut_none A i d ℓ op hAi]
    cases op <;> rfl

theorem accessBody_inv (A : Int → Option Bytes) (st : OramState) (op : Operation)
    (i : Int) (d : Bytes) (ℓ : Nat) (hInv : Inv A st) (hi : goodIndex st.N i)
    (hl : ℓ < st.numLeaves) :
    Inv (applyReq A ⟨op, i, d, ℓ⟩) (accessBody st op i d ℓ).state :=
  inv_step A st op i d ℓ hInv hi hl

/-- The out-of-range guard: an in-range index always succeeds. -/
theorem access_ok (st : OramState) (op : Operation) (i : Int) (d : Bytes) (ℓ : Nat)
    (hi : goodIndex st.N i) :
    access st op i d ℓ = .ok (accessBody st op i d ℓ) := by
  unfold access
  rw [if_neg]
  rcases hi with ⟨h0, hN⟩
  intro h
  rcases h with h | h <;> omega

theorem run_cons_ok (st : OramState) (r : Req) (rs : List Req) (res : AccessResult)
    (hok : access st r.op r.index r.data r.leaf = .ok res) :
    run st (r :: rs) = match run res.state rs with
      | .error e => .error e
      | .ok (stF, outs, tr) => .ok (stF, res.data :: outs, res.trace ++ tr) := by
  have h1 : run st (r :: rs) = match access st r.op r.index r.data r.leaf with
      | .error e => .error e
      | .ok res =>
        match run res.state rs with
        | .error e => .error e
        | .ok (stF, outs, tr) => .ok (stF, res.data :: outs, res.trace ++ tr) := rfl
  rw [h1, hok]

/-- Master run lemma: a sequence of valid requests from an invariant state
succeeds, ends in an invariant state for the updated abstract memory, and
returns exactly the specified outputs. -/
theorem run_inv : ∀ (reqs : List Req) (A : Int → Option Bytes) (st : OramState),
    Inv A st → (∀ r ∈ reqs, goodIndex st.N r.index ∧ r.leaf < st.numLeaves) →
    ∃ stF outs tr, run st reqs = .ok (stF, outs, tr) ∧
      Inv (lastWritten A reqs) stF ∧ outs = specOuts A reqs ∧
      stF.N = st.N ∧ stF.Z = st.Z ∧ stF.L = st.L ∧ stF.numLeaves = st.numLeaves := by
  intro reqs
  induction reqs with
  | nil =>
    intro A st hInv _
    exact ⟨st, [], [], rfl, hInv, rfl, rfl, rfl, rfl, rfl⟩
  | cons r rs ih =>
    intro A st hInv hall
    have hr := hall r (List.mem_cons_self r rs)
    have hok := access_ok st r.op r.index r.data r.leaf hr.1
    have hInv2 : Inv (applyReq A r) (accessBody st r.op r.index r.data r.leaf).state :=
      accessBody_inv A st r.op r.index r.data r.leaf hInv hr.1 hr.2
    have hdata := accessBody_data A st r.op r.index r.data r.leaf hInv hr.1
    have hall2 : ∀ q ∈ rs,
        goodIndex (accessBody st r.op r.index r.data r.leaf).state.N q.index ∧
          q.leaf < (accessBody st r.op r.index r.data r.leaf).state.numLeaves := by
      intro q hq
      exact hall q (List.mem_cons_of_mem r hq)
    rcases ih (applyReq A r) _ hInv2 hall2 with
      ⟨stF, outs, tr, hrun, hInvF, houts, hN, hZ, hL, hNL⟩
    refine ⟨stF, (accessBody st r.op r.index r.data r.leaf).data :: outs,
      (accessBody st r.op r.index r.data r.leaf).trace ++ tr, ?_, hInvF, ?_,
      hN, hZ, hL, hNL⟩
    · rw [run_cons_ok st r rs _ hok, hrun]
    · show _ = specOut A r :: specOuts (applyReq A r) rs
      rw [hdata, houts]
  
/-- The fresh state satisfies the invariant for the fresh abstract memory. -/
theorem inv_init (N Z : Nat) (pos : Int → Nat)
    (hpos : ∀ i : Int, goodIndex N i → pos i < 2 ^ calcL N) :
    Inv emptyMap (initState N Z pos) := by
  refine ⟨rfl, ?_, List.nodup_nil, ?_, ?_, ?_, ?_⟩
  · intro i hi
    exact hpos i hi
  · intro b hb
    exact absurd hb (List.not_mem_nil b)
  · intro n blob hn
    exact Option.noConfusion hn
  · intro j dj hj
    exact Option.noConfusion hj
  · intro j dj hj
    exact Option.noConfusion hj

/-! ## Client-state snapshot (stash.json) -/

/-- One stash entry as `_save_stash` serializes it:
`{"data": list(block.data) if block.data else [], "index": block.index}`. -/
structure SavedBlock where
  data : List Nat
  index : Int
  deriving Repr, DecidableEq

/-- The `stash.json` contents: position map (JSON object keys are decimal
strings, modelled as base-10 digit lists, so the constructor's `int(key)`
becomes `Nat.ofDigits 10`), stash entries in dict order, and the metadata
record `{num_blocks, bucket_size, tree_height, num_leaves}`. -/
structure Snapshot where
  positionMap : List (List Nat × Nat)
  stashBlocks : List SavedBlock
  numBlocks : Nat
  bucketSize : Nat
  treeHeight : Nat
  numLeavesMeta : Nat
  deriving Repr, DecidableEq

/-- `PathOram._save_stash` (the position dict holds keys `0..N-1` in
insertion order, which updates preserve). -/
def saveStash (st : OramState) : Snapshot :=
  { positionMap := (List.range st.N).map fun k => (Nat.digits 10 k, st.position (k : Int))
    stashBlocks := st.stash.map fun b =>
      ⟨if b.data = [] then [] else b.data, b.index⟩
    numBlocks := st.N
    bucketSize := st.Z
    treeHeight := st.L
    numLeavesMeta := st.numLeaves }

/-- `PathOram._load_stash` followed by the constructor's string-to-int key
conversion: rebuild the stash dict entry by entry
(`bytes(d) if d else b""`), parse each position key back to an integer, and
reject the snapshot when the metadata does not match the current
parameters. -/
def loadStash (snap : Snapshot) (N Z L numLeaves : Nat) :
    Option (List (Int × Nat) × List Block) :=
  if snap.numBlocks = N ∧ snap.bucketSize = Z ∧ snap.treeHeight = L ∧
      snap.numLeavesMeta = numLeaves then
    some (snap.positionMap.map fun kv => (((Nat.ofDigits 10 kv.1 : Nat) : Int), kv.2),
      snap.stashBlocks.foldl
        (fun acc sb => dictInsert acc ⟨if sb.data = [] then [] else sb.data, sb.index⟩) [])
  else none

theorem dictInsert_absent (s : List Block) (b : Block)
    (h : b.index ∉ s.map Block.index) : dictInsert s b = s ++ [b] := by
  have hany : (s.any fun x => x.index == b.index) = false := by
    cases hx : s.any fun x => x.index == b.index
    · rfl
    · exfalso
      rcases List.any_eq_true.mp hx with ⟨x, hmem, hxb⟩
      exact h (List.mem_map.mpr ⟨x, hmem, beq_iff_eq.mp hxb⟩)
  simp [dictInsert, hany]

theorem foldl_dictInsert_append : ∀ (l acc : List Block),
    (acc.map Block.index ++ l.map Block.index).Nodup →
    l.foldl dictInsert acc = acc ++ l := by
  intro l
  induction l with
  | nil =>
    intro acc _
    simp
  | cons b l ih =>
    intro acc hnd
    have hmem : b.index ∉ acc.map Block.index := by
      intro hmem
      have := List.disjoint_of_nodup_append hnd
      exact this hmem (List.mem_cons_self _ _)
    show l.foldl dictInsert (dictInsert acc b) = acc ++ b :: l
    rw [dictInsert_absent acc b hmem]
    have hside : ((acc ++ [b]).map Block.index ++ l.map Block.index).Nodup := by
      have heq : (acc ++ [b]).map Block.index ++ l.map Block.index
          = acc.map Block.index ++ (b :: l).map Block.index := by
        simp
      rw [heq]
      exact hnd
    rw [ih (acc ++ [b]) hside, List.append_assoc]
    rfl

/-- Snapshot round trip: saving and reloading (with matching metadata) yields
the identity position-map association and the identical stash. -/
theorem loadStash_saveStash (st : OramState)
    (hnd : (st.stash.map Block.index).Nodup) :
    loadStash (saveStash st) st.N st.Z st.L st.numLeaves
      = some ((List.range st.N).map fun (k : Nat) => ((k : Int), st.position (k : Int)),
          st.stash) := by
  unfold loadStash saveStash
  rw [if_pos ⟨rfl, rfl, rfl, rfl⟩]
  congr 1
  congr 1
  · rw [List.map_map]
    apply List.map_congr_left
    intro k _
    simp only [Function.comp_apply]
    rw [Nat.ofDigits_digits]
  · rw [List.foldl_map]
    have hfun : ∀ (acc : List Block) (b : Block),
        dictInsert acc
          ⟨if (if b.data = [] then [] else b.data) = [] then []
            else if b.data = [] then [] else b.data, b.index⟩
          = dictInsert acc b := by
      intro acc b
      congr 1
      cases b with
      | mk bdata bindex =>
        by_cases hb : bdata = []
        · simp [hb]
        · simp [hb]
    have hfeq : (fun (acc : List Block) (b : Block) =>
        dictInsert acc
          ⟨if (if b.data = [] then [] else b.data) = [] then []
            else if b.data = [] then [] else b.data, b.index⟩)
        = fun acc b => dictInsert acc b := by
      funext acc b
      exact hfun acc b
    rw [hfeq]
    have := foldl_dictInsert_append st.stash []
    rw [List.map_nil, List.nil_append] at this
    rw [this hnd, List.nil_append]

/-! ## The stash-size simulator (`simulation.py`) -/

/-- The method names the `PathOram` class in `simulation.py` defines (its
`__init__`, `access`, and the private helpers); its only base class,
`OramInterface`, declares just `access`.  No `get_stash_size` exists. -/
def simulationPathOramMethods : List String :=
  ["__init__", "access", "_get_root_to_leaf_path", "_get_blocks", "_write_path",
   "_save_stash", "_load_stash"]

/-- Python attribute lookup `oram.m` on a `PathOram` instance of
`simulation.py`: a missing method raises `AttributeError`. -/
def lookupMethod (m : String) : Except String Unit :=
  if simulationPathOramMethods.contains m then .ok ()
  else .error ("AttributeError: PathOram object has no attribute " ++ m)

/-- The recording loop of `StashSizeSimulator.run_simulation` (step 3): each
iteration performs one in-range `READ` access (which the engine accepts) and
then calls `oram.get_stash_size()`; `sizes i` stands for the stash size that
call would report if it existed.  An `AttributeError` propagates out. -/
def recordingLoop (sizes : Nat → Nat) : Nat → List Nat → Except String (List Nat)
  | 0, pmf => .ok pmf
  | n + 1, pmf =>
    match lookupMethod "get_stash_size" with
    | .error e => .error e
    | .ok _ =>
      recordingLoop sizes n
        (if sizes n < pmf.length then pmf.set (sizes n) (pmf.getD (sizes n) 0 + 1)
         else pmf)

/-- `run_simulation` after the warm-up writes (which touch no missing
attribute): the recording loop over `pmf_counts = [0] * (num_blocks + 1)`,
then the CCDF `ccdf[k] = Σ_{j ≥ k} pmf[j]` that `_write_simulation_results`
would receive.  The result is the written output; an exception means no
output file is produced. -/
def runSimulation (sizes : Nat → Nat) (numBlocks numAccesses : Nat) :
    Except String (List Nat) :=
  match recordingLoop sizes numAccesses (List.replicate (numBlocks + 1) 0) with
  | .error e => .error e
  | .ok pmf => .ok ((List.range pmf.length).map fun k => (pmf.drop k).sum)

/-! ## Backend-trace counting -/

theorem accessBody_trace (st : OramState) (op : Operation) (i : Int)
    (d : Bytes) (ℓ : Nat) :
    (accessBody st op i d ℓ).trace
      = getBlocksEvents (rootToLeafPath st.L (st.position i))
        ++ writePathEvents (rootToLeafPath st.L (st.position i)) := rfl

theorem batchEvents_length (f : Nat → Ev) (p : List Nat) :
    ∀ m, m ≤ p.length →
      2 * ((List.range m).flatMap fun k => (p.take (k + 1)).map f).length
        = m * (m + 1) := by
  intro m
  induction m with
  | zero =>
    intro _
    rfl
  | succ m ih =>
    intro hm
    rw [List.range_succ, List.flatMap_append, List.length_append]
    have h1 := ih (by omega)
    have h2 : (([m].flatMap fun k => (p.take (k + 1)).map f)).length = m + 1 := by
      show ((p.take (m + 1)).map f ++ []).length = m + 1
      rw [List.append_nil, List.length_map, List.length_take]
      omega
    rw [h2]
    calc 2 * (((List.range m).flatMap fun k => (p.take (k + 1)).map f).length + (m + 1))
        = 2 * ((List.range m).flatMap fun k => (p.take (k + 1)).map f).length
          + 2 * (m + 1) := by ring
    _ = m * (m + 1) + 2 * (m + 1) := by rw [h1]
    _ = (m + 1) * (m + 1 + 1) := by ring

theorem writePathEvents_length (p : List Nat) :
    2 * (writePathEvents p).length = p.length * (p.length + 1) :=
  batchEvents_length Ev.put p p.length le_rfl

theorem getBlocksEvents_length (p : List Nat) :
    2 * (getBlocksEvents p).length = p.length * (p.length + 1) :=
  batchEvents_length Ev.get p p.length le_rfl

theorem batchEvents_mem (f : Nat → Ev) (p : List Nat) (ev : Ev)
    (h : ev ∈ (List.range p.length).flatMap fun k => (p.take (k + 1)).map f) :
    ∃ n ∈ p, ev = f n := by
  rcases List.mem_flatMap.mp h with ⟨k, _, hk⟩
  rcases List.mem_map.mp hk with ⟨n, hn, hfn⟩
  exact ⟨n, List.mem_of_mem_take hn, hfn.symm⟩

theorem batchEvents_cover (f : Nat → Ev) (p : List Nat) (n : Nat) (hn : n ∈ p) :
    f n ∈ (List.range p.length).flatMap fun k => (p.take (k + 1)).map f := by
  have hpos : 0 < p.length := List.length_pos.mpr (List.ne_nil_of_mem hn)
  refine List.mem_flatMap.mpr ⟨p.length - 1, List.mem_range.mpr (by omega), ?_⟩
  apply List.mem_map_of_mem
  have heq : p.length - 1 + 1 = p.length := by omega
  rw [heq, List.take_length]
  exact hn

theorem getBlocksEvents_all_get (p : List Nat) :
    ∀ ev ∈ getBlocksEvents p, ∃ n ∈ p, ev = Ev.get n :=
  fun ev h => batchEvents_mem Ev.get p ev h

theorem writePathEvents_all_put (p : List Nat) :
    ∀ ev ∈ writePathEvents p, ∃ n ∈ p, ev = Ev.put n :=
  fun ev h => batchEvents_mem Ev.put p ev h

theorem trace_countP_put (p : List Nat) :
    ((getBlocksEvents p ++ writePathEvents p).countP
      fun e => match e with | .put _ => true | .get _ => false)
      = (writePathEvents p).length := by
  rw [List.countP_append]
  have h1 : ((getBlocksEvents p).countP
      fun e => match e with | .put _ => true | .get _ => false) = 0 := by
    rw [List.countP_eq_zero]
    intro ev hev
    rcases getBlocksEvents_all_get p ev hev with ⟨n, _, rfl⟩
    simp
  have h2 : ((writePathEvents p).countP
      fun e => match e with | .put _ => true | .get _ => false)
      = (writePathEvents p).length := by
    rw [List.countP_eq_length]
    intro ev hev
    rcases writePathEvents_all_put p ev hev with ⟨n, _, rfl⟩
    rfl
  rw [h1, h2, Nat.zero_add]

theorem trace_countP_get (p : List Nat) :
    ((getBlocksEvents p ++ writePathEvents p).countP
      fun e => match e with | .get _ => true | .put _ => false)
      = (getBlocksEvents p).length := by
  rw [List.countP_append]
  have h1 : ((writePathEvents p).countP
      fun e => match e with | .get _ => true | .put _ => false) = 0 := by
    rw [List.countP_eq_zero]
    intro ev hev
    rcases writePathEvents_all_put p ev hev with ⟨n, _, rfl⟩
    simp
  have h2 : ((getBlocksEvents p).countP
      fun e => match e with | .get _ => true | .put _ => false)
      = (getBlocksEvents p).length := by
    rw [List.countP_eq_length]
    intro ev hev
    rcases getBlocksEvents_all_get p ev hev with ⟨n, _, rfl⟩
    rfl
  rw [h1, h2, Nat.add_zero]

/-! ## Claim-level statements -/

/-- Outcome predicate for an access sequence against a fresh client: the run
succeeds and its final state, outputs and backend trace satisfy `P`. -/
def RunsTo (N Z : Nat) (pos0 : Int → Nat) (reqs : List Req)
    (P : OramState → List Bytes → List Ev → Prop) : Prop :=
  match run (initState N Z pos0) reqs with
  | .ok (st, outs, tr) => P st outs tr
  | .error _ => False

/-- Path containment: every non-dummy block held in a backend bucket sits on
the root-to-leaf path of its current position-map entry (a block not in the
backend is in the stash by definition of the state). -/
def PathContainment (st : OramState) : Prop :=
  ∀ n blob bu b, st.store n = some blob → decodeBucket blob = .ok bu →
    b ∈ bu.blocks → b.index ≠ DUMMY_BLOCK_INDEX →
    n ∈ rootToLeafPath st.L (st.position b.index)

theorem specOuts_getD : ∀ (reqs : List Req) (A : Int → Option Bytes) (k : Nat)
    (hk : k < reqs.length),
    (specOuts A reqs).getD k []
      = specOut (lastWritten A (reqs.take k)) (reqs.get ⟨k, hk⟩) := by
  intro reqs
  induction reqs with
  | nil =>
    intro A k hk
    exact absurd hk (by simp)
  | cons r rs ih =>
    intro A k hk
    match k with
    | 0 => rfl
    | k + 1 =>
      show (specOuts (applyReq A r) rs).getD k [] = _
      rw [ih (applyReq A r) k (by simpa using hk)]
      rfl

theorem specOut_read_getD (A : Int → Option Bytes) (r : Req) (h : r.op = .READ) :
    specOut A r = (A r.index).getD [] := by
  obtain ⟨op, i, dd, lf⟩ := r
  cases op with
  | READ =>
    unfold specOut
    cases hA : A i with
    | none => rfl
    | some v => rfl
  | WRITE => exact Operation.noConfusion h

/-- C1 (amended): for every in-range access sequence from a fresh client, the
first component of each access's return is `specOut`: a `READ` returns the
block's current value; a `WRITE` returns the empty byte sequence when the
block was never written, and otherwise returns the newly written data (the
returned `target_block` aliases the stash entry the write just mutated) —
not the value the block held before the write. -/
theorem c1_access_returns_spec (N Z : Nat) (pos0 : Int → Nat) (reqs : List Req)
    (hpos : ∀ i : Int, goodIndex N i → pos0 i < 2 ^ calcL N)
    (hreqs : ∀ r ∈ reqs, goodIndex N r.index ∧ r.leaf < 2 ^ calcL N) :
    RunsTo N Z pos0 reqs fun _ outs _ => outs = specOuts emptyMap reqs := by
  rcases run_inv reqs emptyMap (initState N Z pos0) (inv_init N Z pos0 hpos) hreqs
    with ⟨stF, outs, tr, hrun, _, houts, _⟩
  unfold RunsTo
  rw [hrun]
  exact houts

/-- C1 witness: a fresh client, one write then one read. -/
theorem c1_access_returns_spec_witness :
    RunsTo 2 4 (fun _ => 0) [⟨.WRITE, 0, [3], 1⟩, ⟨.READ, 0, [], 0⟩]
      fun _ outs _ =>
        outs = specOuts emptyMap [⟨.WRITE, 0, [3], 1⟩, ⟨.READ, 0, [], 0⟩] :=
  c1_access_returns_spec 2 4 (fun _ => 0) _
    (by intro i _; show (0 : Nat) < 2 ^ calcL 2; decide) (by decide)

/-- C1 counterexample: with `N = 1`, writing `[1]` to block 0 and then
writing `[2]` to block 0, the second access returns `[2]` — the value after
its own mutation — while the value block 0 held before that access was
`[1]`, so the first returned component is not "the block's value as it was
before any mutation made by this access". -/
theorem c1_write_returns_new_value_cex :
    ((run (initState 1 4 fun _ => 0)
        [⟨.WRITE, 0, [1], 0⟩, ⟨.WRITE, 0, [2], 0⟩]).toOption.map
      fun x => x.2.1.getD 1 []) = some [2] ∧
    lastWritten emptyMap [⟨.WRITE, 0, [1], 0⟩] 0 = some [1] ∧
    ([2] : Bytes) ≠ [1] :=
  ⟨by decide, by decide, by decide⟩

theorem specOut_write_chars (A : Int → Option Bytes) (r : Req)
    (h : r.op = .WRITE) :
    specOut A r = if A r.index = none then [] else r.data := by
  obtain ⟨op, i, dd, lf⟩ := r
  cases op with
  | READ => exact Operation.noConfusion h
  | WRITE =>
    unfold specOut
    cases hA : A i with
    | none => simp
    | some v => simp

/-- C2 counterexample: write `[7]` to block 1, then write `[8]` to block 1.
The second access follows a write to block 1 with no intervening write, yet
it returns `[8]` — the data it places itself — and not `[7]`, the bytes the
most recent preceding write placed. -/
theorem c2_write_follower_cex :
    ((run (initState 2 4 fun _ => 0)
        [⟨.WRITE, 1, [7], 1⟩, ⟨.WRITE, 1, [8], 0⟩]).toOption.map
      fun x => x.2.1.getD 1 []) = some [8] ∧
    lastWritten emptyMap [⟨.WRITE, 1, [7], 1⟩] 1 = some [7] ∧
    ([8] : Bytes) ≠ [7] :=
  ⟨by decide, by decide, by decide⟩

/-- C2 (amended): in every in-range sequence from a fresh client, a `READ`
on block `i` returns exactly the bytes placed by the most recent preceding
write to `i`, or the empty byte sequence if `i` was never written; a `WRITE`
on `i` returns the empty byte sequence if `i` was never written before it,
and otherwise returns the data this write itself places (the aliased
`target_block`), not the bytes of the most recent preceding write. -/
theorem c2_read_after_write (N Z : Nat) (pos0 : Int → Nat) (reqs : List Req)
    (hpos : ∀ i : Int, goodIndex N i → pos0 i < 2 ^ calcL N)
    (hreqs : ∀ r ∈ reqs, goodIndex N r.index ∧ r.leaf < 2 ^ calcL N) :
    RunsTo N Z pos0 reqs fun _ outs _ =>
      ∀ k, ∀ hk : k < reqs.length,
        ((reqs.get ⟨k, hk⟩).op = .READ →
          outs.getD k []
            = (lastWritten emptyMap (reqs.take k)
                (reqs.get ⟨k, hk⟩).index).getD []) ∧
        ((reqs.get ⟨k, hk⟩).op = .WRITE →
          outs.getD k []
            = if lastWritten emptyMap (reqs.take k) (reqs.get ⟨k, hk⟩).index = none
              then [] else (reqs.get ⟨k, hk⟩).data) := by
  rcases run_inv reqs emptyMap (initState N Z pos0) (inv_init N Z pos0 hpos) hreqs
    with ⟨stF, outs, tr, hrun, _, houts, _⟩
  unfold RunsTo
  rw [hrun]
  intro k hk
  constructor
  · intro hop
    rw [houts, specOuts_getD reqs emptyMap k hk, specOut_read_getD _ _ hop]
  · intro hop
    rw [houts, specOuts_getD reqs emptyMap k hk, specOut_write_chars _ _ hop]

/-- C2 witness: write block 0, write block 0 again, read block 0, read
never-written block 1. -/
theorem c2_read_after_write_witness :
    RunsTo 2 4 (fun _ => 0)
      [⟨.WRITE, 0, [9], 1⟩, ⟨.WRITE, 0, [5], 0⟩, ⟨.READ, 0, [], 0⟩,
        ⟨.READ, 1, [], 1⟩]
      fun _ outs _ =>
        ∀ k, ∀ hk : k <
            ([⟨.WRITE, 0, [9], 1⟩, ⟨.WRITE, 0, [5], 0⟩, ⟨.READ, 0, [], 0⟩,
              ⟨.READ, 1, [], 1⟩] : List Req).length,
          ((([⟨.WRITE, 0, [9], 1⟩, ⟨.WRITE, 0, [5], 0⟩, ⟨.READ, 0, [], 0⟩,
              ⟨.READ, 1, [], 1⟩] : List Req).get ⟨k, hk⟩).op = .READ →
            outs.getD k []
              = (lastWritten emptyMap
                  (([⟨.WRITE, 0, [9], 1⟩, ⟨.WRITE, 0, [5], 0⟩, ⟨.READ, 0, [], 0⟩,
                    ⟨.READ, 1, [], 1⟩] : List Req).take k)
                  (([⟨.WRITE, 0, [9], 1⟩, ⟨.WRITE, 0, [5], 0⟩, ⟨.READ, 0, [], 0⟩,
                    ⟨.READ, 1, [], 1⟩] : List Req).get ⟨k, hk⟩).index).getD []) ∧
          ((([⟨.WRITE, 0, [9], 1⟩, ⟨.WRITE, 0, [5], 0⟩, ⟨.READ, 0, [], 0⟩,
              ⟨.READ, 1, [], 1⟩] : List Req).get ⟨k, hk⟩).op = .WRITE →
            outs.getD k []
              = if lastWritten emptyMap
                    (([⟨.WRITE, 0, [9], 1⟩, ⟨.WRITE, 0, [5], 0⟩, ⟨.READ, 0, [], 0⟩,
                      ⟨.READ, 1, [], 1⟩] : List Req).take k)
                    (([⟨.WRITE, 0, [9], 1⟩, ⟨.WRITE, 0, [5], 0⟩, ⟨.READ, 0, [], 0⟩,
                      ⟨.READ, 1, [], 1⟩] : List Req).get ⟨k, hk⟩).index = none
                then []
                else (([⟨.WRITE, 0, [9], 1⟩, ⟨.WRITE, 0, [5], 0⟩, ⟨.READ, 0, [], 0⟩,
                  ⟨.READ, 1, [], 1⟩] : List Req).get ⟨k, hk⟩).data) :=
  c2_read_after_write 2 4 (fun _ => 0) _
    (by intro i _; show (0 : Nat) < 2 ^ calcL 2; decide) (by decide)

/-- C3: from a fresh client, after any in-range access sequence every
non-dummy block stored in the backend sits on the root-to-leaf path of its
current position-map entry (and every other live block is in the stash), so
the Path ORAM invariant holds at every quiescent moment. -/
theorem c3_path_containment (N Z : Nat) (pos0 : Int → Nat) (reqs : List Req)
    (hpos : ∀ i : Int, goodIndex N i → pos0 i < 2 ^ calcL N)
    (hreqs : ∀ r ∈ reqs, goodIndex N r.index ∧ r.leaf < 2 ^ calcL N) :
    RunsTo N Z pos0 reqs fun st _ _ => PathContainment st := by
  rcases run_inv reqs emptyMap (initState N Z pos0) (inv_init N Z pos0 hpos) hreqs
    with ⟨stF, outs, tr, hrun, hInvF, _⟩
  unfold RunsTo
  rw [hrun]
  intro n blob bu b hn hdec hb hbnd
  obtain ⟨_, _, _, _, hstoreF, _, _⟩ := hInvF
  rcases hstoreF n blob hn with ⟨bu2, hdec2, _, hgood⟩
  have hbu : bu2 = bu := by
    rw [hdec] at hdec2
    exact (Except.ok.inj hdec2).symm
  subst hbu
  exact (hgood b hb hbnd).2

/-- C3 witness: two writes and a read on a fresh 4-block client. -/
theorem c3_path_containment_witness :
    RunsTo 4 4 (fun _ => 0)
      [⟨.WRITE, 0, [1], 3⟩, ⟨.WRITE, 2, [2], 0⟩, ⟨.READ, 0, [], 1⟩]
      fun st _ _ => PathContainment st :=
  c3_path_containment 4 4 (fun _ => 0) _
    (by intro i _; show (0 : Nat) < 2 ^ calcL 4; decide) (by decide)

/-- What one in-range access does to the backend, as a predicate: the trace
is the path-read events followed by the path-write events of the old leaf's
path, with `(L+1)(L+2)/2` GET operations and as many PUT operations, all on
path nodes, and every path node both read and written at least once. -/
def AccessTouchesOldPath (st : OramState) (op : Operation) (i : Int)
    (d : Bytes) (ℓ : Nat) : Prop :=
  match access st op i d ℓ with
  | .ok res =>
      res.trace = getBlocksEvents (rootToLeafPath st.L (st.position i))
          ++ writePathEvents (rootToLeafPath st.L (st.position i)) ∧
      2 * (res.trace.countP fun e => match e with | .put _ => true | .get _ => false)
          = (st.L + 1) * (st.L + 2) ∧
      2 * (res.trace.countP fun e => match e with | .get _ => true | .put _ => false)
          = (st.L + 1) * (st.L + 2) ∧
      (∀ ev ∈ res.trace, ∃ n ∈ rootToLeafPath st.L (st.position i),
          ev = Ev.get n ∨ ev = Ev.put n) ∧
      (∀ n ∈ rootToLeafPath st.L (st.position i),
          Ev.get n ∈ res.trace ∧ Ev.put n ∈ res.trace)
  | .error _ => False

/-- C4 (amended): every in-range access touches exactly the nodes of the
single root-to-leaf path of the old leaf `P[block_index]` (the value before
the remap), but because `_get_blocks` and `_write_path` call the batched
backend operations on their growing accumulators inside their loops, it
issues `(L+1)(L+2)/2` backend reads and `(L+1)(L+2)/2` backend writes — the
node at path position `k` is accessed `L+1-k` times — not one read and one
write per node; in scenario S2 (`N = 8`, `Z = 4`, four accesses) this makes
40 node writes in total, not 20. -/
theorem c4_access_touches_old_path (st : OramState) (op : Operation) (i : Int)
    (d : Bytes) (ℓ : Nat) (hi : goodIndex st.N i)
    (hposi : st.position i < 2 ^ st.L) :
    AccessTouchesOldPath st op i d ℓ := by
  unfold AccessTouchesOldPath
  rw [access_ok st op i d ℓ hi]
  have hplen := rootToLeafPath_length st.L _ hposi
  refine ⟨accessBody_trace st op i d ℓ, ?_, ?_, ?_, ?_⟩
  · rw [accessBody_trace st op i d ℓ, trace_countP_put]
    have hw := writePathEvents_length (rootToLeafPath st.L (st.position i))
    rw [hplen] at hw
    exact hw
  · rw [accessBody_trace st op i d ℓ, trace_countP_get]
    have hg := getBlocksEvents_length (rootToLeafPath st.L (st.position i))
    rw [hplen] at hg
    exact hg
  · intro ev hev
    rw [accessBody_trace st op i d ℓ] at hev
    rcases List.mem_append.mp hev with h | h
    · rcases getBlocksEvents_all_get _ ev h with ⟨n, hn, rfl⟩
      exact ⟨n, hn, Or.inl rfl⟩
    · rcases writePathEvents_all_put _ ev h with ⟨n, hn, rfl⟩
      exact ⟨n, hn, Or.inr rfl⟩
  · intro n hn
    rw [accessBody_trace st op i d ℓ]
    exact ⟨List.mem_append_left _ (batchEvents_cover Ev.get _ n hn),
      List.mem_append_right _ (batchEvents_cover Ev.put _ n hn)⟩

/-- C4 witness: one write on a fresh two-block client. -/
theorem c4_access_touches_old_path_witness :
    AccessTouchesOldPath (initState 2 4 fun _ => 0) .WRITE 0 [7] 1 :=
  c4_access_touches_old_path (initState 2 4 fun _ => 0) .WRITE 0 [7] 1
    (by decide) (by decide)

/-- C4 counterexample: in scenario S2 (`N = 8`, `Z = 4`, fresh client, four
accesses) the backend receives 40 PUT operations, not the claimed 20; and
already the first access issues 10 GET operations, not `L + 1 = 4`. -/
theorem c4_single_rw_per_node_cex :
    ((run (initState 8 4 fun _ => 0)
        [⟨.WRITE, 0, [97], 3⟩, ⟨.WRITE, 1, [98], 5⟩,
          ⟨.READ, 0, [], 2⟩, ⟨.READ, 1, [], 7⟩]).toOption.map
      fun x => x.2.2.countP fun e => match e with | .put _ => true | .get _ => false)
      = some 40 ∧ (40 : Nat) ≠ 20 ∧
    ((access (initState 8 4 fun _ => 0) .WRITE 0 [97] 3).toOption.map
      fun res => res.trace.countP fun e => match e with | .get _ => true | .put _ => false)
      = some 10 ∧ (10 : Nat) ≠ calcL 8 + 1 :=
  ⟨by decide, by decide, by decide, by decide⟩

/-- C5: `access` raises the out-of-range `ValueError` exactly when
`block_index ∉ [0, N)`; the guard precedes the remap, the path read, every
backend operation and the snapshot write, so a failed call leaves the
position map, stash and backend contents untouched. -/
theorem c5_out_of_range_iff (st : OramState) (op : Operation) (i : Int)
    (d : Bytes) (ℓ : Nat) :
    access st op i d ℓ = .error "Block index out of range" ↔
      (i < 0 ∨ (st.N : Int) ≤ i) := by
  unfold access
  by_cases h : i < 0 ∨ (st.N : Int) ≤ i
  · rw [if_pos h]
    exact ⟨fun _ => h, fun _ => rfl⟩
  · rw [if_neg h]
    exact ⟨fun hcontra => Except.noConfusion hcontra, fun hcontra => absurd hcontra h⟩

/-- C5 witness: index 7 is out of range for `N = 4`, index 3 is not. -/
theorem c5_out_of_range_iff_witness :
    access (initState 4 4 fun _ => 0) .READ 7 [] 0
        = .error "Block index out of range" ∧
      ¬ access (initState 4 4 fun _ => 0) .READ 3 [] 0
        = .error "Block index out of range" :=
  ⟨(c5_out_of_range_iff (initState 4 4 fun _ => 0) .READ 7 [] 0).mpr (by decide),
   fun h => absurd ((c5_out_of_range_iff (initState 4 4 fun _ => 0) .READ 3 [] 0).mp h)
     (by decide)⟩

/-- Every backend object an access overwrites holds the serialization of a
bucket of exactly `Z` blocks. -/
def BucketsWrittenFull (st : OramState) (op : Operation) (i : Int)
    (d : Bytes) (ℓ : Nat) : Prop :=
  match access st op i d ℓ with
  | .ok res => ∀ n blob, res.state.store n = some blob →
      st.store n = some blob ∨
      ∃ bu, blob = encodeBucket bu ∧ decodeBucket blob = .ok bu ∧
        bu.blocks.length = st.Z
  | .error _ => True

/-- C6: every bucket an access writes to the backend contains exactly `Z`
blocks — at each eviction level at most `Z` evictable blocks are chosen and
the bucket is padded with dummy blocks up to `Z`. -/
theorem c6_bucket_cardinality (st : OramState) (op : Operation) (i : Int)
    (d : Bytes) (ℓ : Nat) : BucketsWrittenFull st op i d ℓ := by
  unfold BucketsWrittenFull
  unfold access
  by_cases h : i < 0 ∨ (st.N : Int) ≤ i
  · rw [if_pos h]
    trivial
  · rw [if_neg h]
    intro n blob hn
    have hn2 : writeStoreFold st.store
        ((rootToLeafPath st.L (st.position i)).zip
          (evictLevels st.Z st.L (posUpdate st.position i ℓ)
            (rootToLeafPath st.L (st.position i)) (levelsDesc st.L)
            (serviceStash (drainStash st (rootToLeafPath st.L (st.position i)))
              (stashFind (drainStash st (rootToLeafPath st.L (st.position i))) i)
              op i d)).2.reverse)
        n = some blob := hn
    rcases writeStoreFold_cases
        ((rootToLeafPath st.L (st.position i)).zip
          (evictLevels st.Z st.L (posUpdate st.position i ℓ)
            (rootToLeafPath st.L (st.position i)) (levelsDesc st.L)
            (serviceStash (drainStash st (rootToLeafPath st.L (st.position i)))
              (stashFind (drainStash st (rootToLeafPath st.L (st.position i))) i)
              op i d)).2.reverse)
        st.store n with h1 | ⟨pr2, hpr2, hn1, hv⟩
    · left
      rw [← h1]
      exact hn2
    · right
      have hblob : blob = encodeBucket pr2.2 := (Option.some.inj (hv.symm.trans hn2)).symm
      refine ⟨pr2.2, hblob, ?_, ?_⟩
      · rw [hblob]
        exact decodeBucket_encodeBucket _
      · have hmem := (List.of_mem_zip hpr2).2
        rw [List.mem_reverse] at hmem
        exact evictLevels_bucket_len st.Z st.L (posUpdate st.position i ℓ)
          (rootToLeafPath st.L (st.position i)) (levelsDesc st.L)
          (serviceStash (drainStash st (rootToLeafPath st.L (st.position i)))
            (stashFind (drainStash st (rootToLeafPath st.L (st.position i))) i)
            op i d) pr2.2 hmem

/-- C6 witness: one write on a fresh single-block client. -/
theorem c6_bucket_cardinality_witness :
    BucketsWrittenFull (initState 1 1 fun _ => 0) .WRITE 0 [7] 0 :=
  c6_bucket_cardinality (initState 1 1 fun _ => 0) .WRITE 0 [7] 0

/-- C7: the bucket codec raises on the empty byte sequence (and deciding
that, on every byte sequence it rejects), and `_get_blocks` turns any such
failure — including the `b""` a read of a missing backend object returns —
into a bucket of exactly `Z` dummy blocks, so a never-written node is
indistinguishable from a node holding an all-dummy bucket. -/
theorem c7_codec_rejects_to_dummies (Z : Nat) :
    reconstructOrDummies Z [] = List.replicate Z Block.dummy ∧
    decodeBucket [] = .error "Expecting value: malformed bucket" ∧
    (∀ blob e, decodeBucket blob = .error e →
      reconstructOrDummies Z blob = List.replicate Z Block.dummy) ∧
    (∀ store : Nat → Option Bytes, ∀ n, store n = none →
      readNode store Z n = List.replicate Z Block.dummy) := by
  have hfail : ∀ blob e, decodeBucket blob = .error e →
      reconstructOrDummies Z blob = List.replicate Z Block.dummy := by
    intro blob e hdec
    unfold reconstructOrDummies
    rw [hdec]
  refine ⟨hfail [] _ decodeBucket_nil, decodeBucket_nil, hfail, ?_⟩
  intro store n hn
  unfold readNode
  rw [hn]
  exact hfail [] _ decodeBucket_nil

/-- C7 witness: a concrete rejected byte sequence and a missing node. -/
theorem c7_codec_rejects_to_dummies_witness :
    reconstructOrDummies 4 [5] = List.replicate 4 Block.dummy ∧
    readNode (fun _ => none) 4 0 = List.replicate 4 Block.dummy :=
  ⟨(c7_codec_rejects_to_dummies 4).2.2.1 [5] "Expecting value: malformed bucket" rfl,
   (c7_codec_rejects_to_dummies 4).2.2.2 (fun _ => none) 0 rfl⟩

/-- The tree-height formula the specification claims: `ceil(log2 max(N,2))`. -/
def specHeightFormula (N : Nat) : Nat := Nat.clog 2 (max N 2)

/-- C8 counterexample: for `N = 1` the constructor sets `L = 0`
(`math.ceil(math.log2(N)) if N > 1 else 0`), while the claimed formula
`ceil(log2 max(N, 2))` gives `1`. -/
theorem c8_height_formula_cex :
    calcL 1 = 0 ∧ specHeightFormula 1 = 1 ∧ calcL 1 ≠ specHeightFormula 1 := by
  have h2 : specHeightFormula 1 = Nat.clog 2 2 := rfl
  have hc : Nat.clog 2 2 = 1 := by
    rw [← calcL_eq_clog 2 (by norm_num)]
    rfl
  refine ⟨rfl, by rw [h2, hc], ?_⟩
  rw [h2, hc]
  decide

/-- C8 (amended): for every `N ≥ 1` the configured height is
`L = ceil(log2 N)` (so `0` for `N = 1`, not `ceil(log2 max(N,2))`), and for
every leaf `ℓ < 2^L`, `path(ℓ)` is the ordered root-to-leaf node list: it
has length `L + 1`, starts at the root `0`, ends at node `2^L - 1 + ℓ`, and
each later element is a child (`2i+1` or `2i+2`) of its predecessor. -/
theorem c8_tree_path_structure (N : Nat) (hN : 1 ≤ N) (leaf : Nat)
    (hleaf : leaf < 2 ^ calcL N) :
    calcL N = Nat.clog 2 N ∧
    (rootToLeafPath (calcL N) leaf).length = calcL N + 1 ∧
    (rootToLeafPath (calcL N) leaf).getD 0 0 = 0 ∧
    (rootToLeafPath (calcL N) leaf).getD (calcL N) 0 = 2 ^ calcL N - 1 + leaf ∧
    ∀ k, k < calcL N →
      (rootToLeafPath (calcL N) leaf).getD (k + 1) 0
          = 2 * (rootToLeafPath (calcL N) leaf).getD k 0 + 1 ∨
        (rootToLeafPath (calcL N) leaf).getD (k + 1) 0
          = 2 * (rootToLeafPath (calcL N) leaf).getD k 0 + 2 :=
  ⟨calcL_eq_clog N hN,
   rootToLeafPath_length (calcL N) leaf hleaf,
   rootToLeafPath_getD_zero (calcL N) leaf hleaf,
   rootToLeafPath_getD_last (calcL N) leaf hleaf,
   fun k hk => rootToLeafPath_child (calcL N) leaf hleaf k hk⟩

/-- C8 witness: `N = 4` (so `L = 2`), leaf 2. -/
theorem c8_tree_path_structure_witness :
    calcL 4 = Nat.clog 2 4 ∧
    (rootToLeafPath (calcL 4) 2).length = calcL 4 + 1 ∧
    (rootToLeafPath (calcL 4) 2).getD 0 0 = 0 ∧
    (rootToLeafPath (calcL 4) 2).getD (calcL 4) 0 = 2 ^ calcL 4 - 1 + 2 ∧
    ∀ k, k < calcL 4 →
      (rootToLeafPath (calcL 4) 2).getD (k + 1) 0
          = 2 * (rootToLeafPath (calcL 4) 2).getD k 0 + 1 ∨
        (rootToLeafPath (calcL 4) 2).getD (k + 1) 0
          = 2 * (rootToLeafPath (calcL 4) 2).getD k 0 + 2 :=
  c8_tree_path_structure 4 (by decide) 2 (by decide)

/-- C9: saving the client state and loading it back — including the
constructor's string-to-int key conversion (`Nat.ofDigits` of the decimal
digits) — yields the same block-index-to-leaf mapping and the identical
stash: same entries, same order, same indices and data bytes. -/
theorem c9_snapshot_roundtrip (st : OramState)
    (hnd : (st.stash.map Block.index).Nodup) :
    ∃ pm stash2,
      loadStash (saveStash st) st.N st.Z st.L st.numLeaves = some (pm, stash2) ∧
      pm = (List.range st.N).map (fun (k : Nat) => ((k : Int), st.position (k : Int))) ∧
      stash2 = st.stash :=
  ⟨_, _, loadStash_saveStash st hnd, rfl, rfl⟩

/-- C9 witness: a two-block client with one stashed block. -/
theorem c9_snapshot_roundtrip_witness :
    ∃ pm stash2,
      loadStash (saveStash ⟨2, 4, 1, 2, fun _ => 0, [⟨[9, 1], 0⟩], fun _ => none⟩)
          2 4 1 2 = some (pm, stash2) ∧
      pm = (List.range 2).map (fun (k : Nat) =>
        ((k : Int), (fun (_ : Int) => (0 : Nat)) (k : Int))) ∧
      stash2 = [⟨[9, 1], 0⟩] :=
  c9_snapshot_roundtrip ⟨2, 4, 1, 2, fun _ => 0, [⟨[9, 1], 0⟩], fun _ => none⟩
    (by decide)

/-- C10: the recording phase of `StashSizeSimulator.run_simulation` calls
`oram.get_stash_size()`, a method the `PathOram` class of `simulation.py`
does not define, so for every parameterization with at least one measured
access the first iteration raises `AttributeError` and no PMF/CCDF output is
ever produced. -/
theorem c10_simulator_attribute_error (sizes : Nat → Nat)
    (numBlocks numAccesses : Nat) (h : 1 ≤ numAccesses) :
    runSimulation sizes numBlocks numAccesses
      = .error "AttributeError: PathOram object has no attribute get_stash_size" := by
  obtain ⟨n, rfl⟩ : ∃ n, numAccesses = n + 1 := ⟨numAccesses - 1, by omega⟩
  have hlook : lookupMethod "get_stash_size"
      = .error "AttributeError: PathOram object has no attribute get_stash_size" := by
    have hc : simulationPathOramMethods.contains "get_stash_size" = false := by decide
    unfold lookupMethod
    rw [hc]
    rfl
  unfold runSimulation recordingLoop
  rw [hlook]

/-- C10 witness: the default simulation parameters (`N = 2^16` scaled down,
five accesses). -/
theorem c10_simulator_attribute_error_witness :
    runSimulation (fun _ => 0) 8 5
      = .error "AttributeError: PathOram object has no attribute get_stash_size" :=
  c10_simulator_attribute_error (fun _ => 0) 8 5 (by decide)
end PathORAM
